import Mathlib

/-!
# Calculator service: tokenizer, shunting-yard conversion and postfix evaluation

A shallow embedding of `cmd/calc_service/main.go` and the properties of its
evaluation pipeline `Calc = computePostfix ∘ infixToPostfix ∘ splitExpression`.

Conventions of the embedding:

* a Go `string` is a Lean `String`, that is a sequence of Unicode scalar values;
  `for i, ch := range expr` visits these with `i` the byte offset of `ch` in the
  UTF-8 encoding (strings holding invalid UTF-8 are outside the model);
* a Go `(T, error)` result is an `Except CalcError T`;
* a Go slice used as a stack is a `List` whose head is the top of the stack;
* the standard-library functions the program calls (`unicode.IsSpace`,
  `unicode.IsDigit`, `strconv.ParseFloat`, `float64` arithmetic) are modelled in
  the first part of the file, under the names they have in Go.
-/

deriving instance DecidableEq for Except

namespace CalcService

/-! ## Standard library: package `unicode` -/

namespace unicode

/-- The function `unicode.IsSpace`: the characters with the Unicode White_Space
property (`'\t'`, `'\n'`, `'\v'`, `'\f'`, `'\r'`, `' '`, U+0085, U+00A0 in Latin-1,
and the category Z and related characters above it). -/
def IsSpace (r : Char) : Bool :=
  let n := r.toNat
  (0x09 ≤ n && n ≤ 0x0D) || n == 0x20 || n == 0x85 || n == 0xA0 || n == 0x1680 ||
    (0x2000 ≤ n && n ≤ 0x200A) || n == 0x2028 || n == 0x2029 || n == 0x202F ||
    n == 0x205F || n == 0x3000

/-- The code point ranges of the Unicode category Nd (decimal digits), Unicode 15.0.0. -/
def digitRanges : List (Nat × Nat) :=
  [(0x30, 0x39), (0x660, 0x669), (0x6F0, 0x6F9), (0x7C0, 0x7C9), (0x966, 0x96F),
   (0x9E6, 0x9EF), (0xA66, 0xA6F), (0xAE6, 0xAEF), (0xB66, 0xB6F), (0xBE6, 0xBEF),
   (0xC66, 0xC6F), (0xCE6, 0xCEF), (0xD66, 0xD6F), (0xDE6, 0xDEF), (0xE50, 0xE59),
   (0xED0, 0xED9), (0xF20, 0xF29), (0x1040, 0x1049), (0x1090, 0x1099), (0x17E0, 0x17E9),
   (0x1810, 0x1819), (0x1946, 0x194F), (0x19D0, 0x19D9), (0x1A80, 0x1A89),
   (0x1A90, 0x1A99), (0x1B50, 0x1B59), (0x1BB0, 0x1BB9), (0x1C40, 0x1C49),
   (0x1C50, 0x1C59), (0xA620, 0xA629), (0xA8D0, 0xA8D9), (0xA900, 0xA909),
   (0xA9D0, 0xA9D9), (0xA9F0, 0xA9F9), (0xAA50, 0xAA59), (0xABF0, 0xABF9),
   (0xFF10, 0xFF19), (0x104A0, 0x104A9), (0x10D30, 0x10D39), (0x11066, 0x1106F),
   (0x110F0, 0x110F9), (0x11136, 0x1113F), (0x111D0, 0x111D9), (0x112F0, 0x112F9),
   (0x11450, 0x11459), (0x114D0, 0x114D9), (0x11650, 0x11659), (0x116C0, 0x116C9),
   (0x11730, 0x11739), (0x118E0, 0x118E9), (0x11950, 0x11959), (0x11C50, 0x11C59),
   (0x11D50, 0x11D59), (0x11DA0, 0x11DA9), (0x11F50, 0x11F59), (0x16A60, 0x16A69),
   (0x16AC0, 0x16AC9), (0x16B50, 0x16B59), (0x1D7CE, 0x1D7FF), (0x1E140, 0x1E149),
   (0x1E2F0, 0x1E2F9), (0x1E4F0, 0x1E4F9), (0x1E950, 0x1E959), (0x1FBF0, 0x1FBF9)]

/-- The function `unicode.IsDigit`: membership in the category Nd. -/
def IsDigit (r : Char) : Bool :=
  digitRanges.any fun p => p.1 ≤ r.toNat && r.toNat ≤ p.2

end unicode

/-- Number of bytes of the UTF-8 encoding of a character: the amount by which the
index of a `range` loop over a string advances. -/
def utf8Len (ch : Char) : Nat :=
  if ch.toNat < 0x80 then 1 else if ch.toNat < 0x800 then 2
  else if ch.toNat < 0x10000 then 3 else 4

/-- Length in bytes of the UTF-8 encoding of a sequence of characters. -/
def utf8Size (cs : List Char) : Nat := (cs.map utf8Len).sum

/-! ## The type `float64`: IEEE-754 binary64 with round-to-nearest-even -/

/-- A binary64 value. `fin neg m e` is `(-1)^neg * m * 2^e`; the values built by
`float64.round` have `m = 0 ∧ e = 0` (a signed zero), or `m < 2^52 ∧ e = -1074`
(subnormal), or `2^52 ≤ m < 2^53 ∧ -1074 ≤ e ≤ 971` (normal). -/
inductive float64 where
  | nan
  | inf (neg : Bool)
  | fin (neg : Bool) (m : Nat) (e : Int)
  deriving DecidableEq, Repr

namespace float64

/-- Number of binary digits of `n`, by halving at most `fuel` times. -/
def bitLenAux : Nat → Nat → Nat
  | 0, _ => 0
  | fuel + 1, n => if n = 0 then 0 else bitLenAux fuel (n / 2) + 1

/-- Number of binary digits of `n` (`0` for `0`). -/
def bitLen (n : Nat) : Nat := bitLenAux n n

/-- The integer nearest to `num / den`, ties to even. -/
def roundHalfEven (num den : Nat) : Nat :=
  let q := num / den
  let r := num % den
  if 2 * r < den then q
  else if den < 2 * r then q + 1
  else if q % 2 = 0 then q else q + 1

/-- The fraction `n / d` divided by `2^e`, as a numerator and a denominator. -/
def scaleBy (n d : Nat) : Int → Nat × Nat
  | Int.ofNat k => (n, d <<< k)
  | Int.negSucc k => (n <<< (k + 1), d)

/-- The binary64 value nearest to the non-negative rational `n / d` (`d ≠ 0`) with
the sign `neg`: 53 significant bits, exponents from `-1074` to `971`, ties to even,
overflow to infinity. -/
def round (neg : Bool) (n d : Nat) : float64 :=
  if n = 0 then fin neg 0 0
  else
    let k : Int := (bitLen n : Int) - (bitLen d : Int)
    let e0 : Int := max (k - 53) (-1074)
    let s0 := scaleBy n d e0
    let e1 : Int := if 2 ^ 53 ≤ s0.1 / s0.2 then e0 + 1 else e0
    let s1 := scaleBy n d e1
    let m := roundHalfEven s1.1 s1.2
    if m = 0 then fin neg 0 0
    else if m = 2 ^ 53 then (if 971 < e1 + 1 then inf neg else fin neg (2 ^ 52) (e1 + 1))
    else if 971 < e1 then inf neg
    else fin neg m e1

/-- The binary64 value nearest to `(-1)^neg * m * 2^e`. -/
def ofScaled (neg : Bool) (m : Nat) : Int → float64
  | Int.ofNat k => round neg (m <<< k) 1
  | Int.negSucc k => round neg m (1 <<< (k + 1))

/-- The binary64 value of a natural number. -/
def ofNat (n : Nat) : float64 := round false n 1

/-- The signed integer `(-1)^neg * m`. -/
def signed (neg : Bool) (m : Nat) : Int := if neg then -(m : Int) else (m : Int)

/-- Unary minus. -/
def neg : float64 → float64
  | nan => nan
  | inf s => inf (!s)
  | fin s m e => fin (!s) m e

/-- The operator `a + b` on `float64`. -/
def add : float64 → float64 → float64
  | nan, _ => nan
  | _, nan => nan
  | inf s, inf t => if s = t then inf s else nan
  | inf s, fin _ _ _ => inf s
  | fin _ _ _, inf t => inf t
  | fin s m e, fin t n f =>
    let g := min e f
    let x := signed s (m <<< (e - g).toNat) + signed t (n <<< (f - g).toNat)
    if x = 0 then fin (s && t) 0 0
    else ofScaled (decide (x < 0)) x.natAbs g

/-- The operator `a - b` on `float64`. -/
def sub (a b : float64) : float64 := add a (neg b)

/-- The operator `a * b` on `float64`. -/
def mul : float64 → float64 → float64
  | nan, _ => nan
  | _, nan => nan
  | inf s, inf t => inf (xor s t)
  | inf s, fin t n _ => if n = 0 then nan else inf (xor s t)
  | fin s m _, inf t => if m = 0 then nan else inf (xor s t)
  | fin s m e, fin t n f => ofScaled (xor s t) (m * n) (e + f)

/-- The operator `a / b` on `float64`. -/
def div : float64 → float64 → float64
  | nan, _ => nan
  | _, nan => nan
  | inf _, inf _ => nan
  | inf s, fin t _ _ => inf (xor s t)
  | fin s _ _, inf t => fin (xor s t) 0 0
  | fin s m e, fin t n f =>
    if n = 0 then (if m = 0 then nan else inf (xor s t))
    else
      match e - f with
      | Int.ofNat k => round (xor s t) (m <<< k) n
      | Int.negSucc k => round (xor s t) m (n <<< (k + 1))

/-- The comparison `b == 0`: true of both signed zeros, false of NaN. -/
def isZero : float64 → Bool
  | fin _ m _ => m == 0
  | _ => false

end float64

/-! ## Standard library: `strconv.ParseFloat` with bit size 64 -/

namespace strconv

/-- An ASCII decimal digit. -/
def isDecDigit (c : Char) : Bool := 0x30 ≤ c.toNat && c.toNat ≤ 0x39

/-- An ASCII letter `a`-`f` or `A`-`F`. -/
def isHexLetter (c : Char) : Bool :=
  (0x61 ≤ c.toNat && c.toNat ≤ 0x66) || (0x41 ≤ c.toNat && c.toNat ≤ 0x46)

/-- Value of a decimal digit or of a hexadecimal letter. -/
def digitVal (c : Char) : Nat :=
  if isDecDigit c then c.toNat - 0x30
  else if 0x61 ≤ c.toNat then c.toNat - 0x61 + 10 else c.toNat - 0x41 + 10

/-- An ASCII upper-case letter is mapped to lower case, as in
`commonPrefixLenIgnoreCase`. -/
def toLowerAscii (c : Char) : Char :=
  if 0x41 ≤ c.toNat ∧ c.toNat ≤ 0x5A then Char.ofNat (c.toNat + 0x20) else c

/-- The function `commonPrefixLenIgnoreCase(s, pre)`, `pre` in lower case. -/
def commonPrefixLenIgnoreCase : List Char → List Char → Nat
  | c :: s, p :: pre => if toLowerAscii c = p then commonPrefixLenIgnoreCase s pre + 1 else 0
  | _, _ => 0

/-- The infinity branch of `special`: `s` follows the optional sign, `nsign` is the
length of the sign. Returns the value and the number of bytes consumed. -/
def specialInf (isNeg : Bool) (nsign : Nat) (s : List Char) : Option (float64 × Nat) :=
  let n := commonPrefixLenIgnoreCase s "infinity".data
  let n := if 3 < n ∧ n < 8 then 3 else n
  if n = 3 ∨ n = 8 then some (float64.inf isNeg, nsign + n) else none

/-- The function `special`: the strings `inf`, `infinity` (optionally signed) and
`nan`, in any case. -/
def special : List Char → Option (float64 × Nat)
  | [] => none
  | c :: s =>
    if c = '+' ∨ c = '-' then specialInf (c = '-') 1 s
    else if c = 'i' ∨ c = 'I' then specialInf false 0 (c :: s)
    else if c = 'n' ∨ c = 'N' then
      if commonPrefixLenIgnoreCase (c :: s) "nan".data = 3 then some (float64.nan, 3) else none
    else none

/-- State of the mantissa loop of `readFloat`. The field `mant` holds all the
significant digits read; the Go code keeps 19 of them and a truncation flag, and
rounds the full decimal afterwards, to the same value. -/
structure Mantissa where
  mant : Nat := 0
  nd : Nat := 0
  dp : Int := 0
  sawdot : Bool := false
  sawdigits : Bool := false
  underscores : Bool := false
  deriving DecidableEq, Repr

/-- The mantissa loop of `readFloat`; returns the state and the unread input. -/
def readMantissa (hex : Bool) : List Char → Mantissa → Mantissa × List Char
  | [], st => (st, [])
  | c :: rest, st =>
    if c = '_' then readMantissa hex rest { st with underscores := true }
    else if c = '.' then
      if st.sawdot then (st, c :: rest)
      else readMantissa hex rest { st with sawdot := true, dp := st.nd }
    else if isDecDigit c then
      if c = '0' ∧ st.nd = 0 then
        readMantissa hex rest { st with sawdigits := true, dp := st.dp - 1 }
      else
        readMantissa hex rest
          { st with sawdigits := true, nd := st.nd + 1,
                    mant := st.mant * (if hex then 16 else 10) + digitVal c }
    else if hex && isHexLetter c then
      readMantissa hex rest
        { st with sawdigits := true, nd := st.nd + 1, mant := st.mant * 16 + digitVal c }
    else (st, c :: rest)

/-- The digit loop of the exponent of `readFloat`: the exponent read so far (it stops
growing at 10000), whether an underscore was seen, and the unread input. -/
def readExpDigits : List Char → Nat → Bool → Nat × Bool × List Char
  | [], e, u => (e, u, [])
  | c :: rest, e, u =>
    if isDecDigit c then readExpDigits rest (if e < 10000 then e * 10 + digitVal c else e) u
    else if c = '_' then readExpDigits rest e true
    else (e, u, c :: rest)

/-- The exponent part of `readFloat`: `none` when it is malformed, otherwise the
signed exponent, whether an underscore was seen, and the unread input. A
hexadecimal mantissa must have an exponent. -/
def readExponent (hex : Bool) : List Char → Option (Int × Bool × List Char)
  | [] => if hex then none else some (0, false, [])
  | c :: rest =>
    if (hex ∧ (c = 'p' ∨ c = 'P')) ∨ (¬ hex ∧ (c = 'e' ∨ c = 'E')) then
      match rest with
      | [] => none
      | d :: rest1 =>
        let body := if d = '+' ∨ d = '-' then rest1 else d :: rest1
        match body with
        | [] => none
        | b :: _ =>
          if isDecDigit b then
            let r := readExpDigits body 0 false
            some (if d = '-' then -(r.1 : Int) else (r.1 : Int), r.2.1, r.2.2)
          else none
    else if hex then none
    else some (0, false, c :: rest)

/-- The loop of `underscoreOK`; `saw` is `'0'` after a digit or base marker, `'_'`
after an underscore, `'!'` after anything else and `'^'` at the start. -/
def underscoreOKLoop (hex : Bool) : List Char → Char → Bool
  | [], saw => saw ≠ '_'
  | c :: rest, saw =>
    if isDecDigit c || (hex && isHexLetter c) then underscoreOKLoop hex rest '0'
    else if c = '_' then (if saw ≠ '0' then false else underscoreOKLoop hex rest '_')
    else if saw = '_' then false
    else underscoreOKLoop hex rest '!'

/-- The function `underscoreOK`: underscores only separate digits, or follow the
base marker. -/
def underscoreOK (s : List Char) : Bool :=
  let s1 := match s with
    | c :: r => if c = '-' ∨ c = '+' then r else s
    | [] => s
  match s1 with
  | c0 :: c1 :: r =>
    if c0 = '0' ∧ (c1 = 'b' ∨ c1 = 'B' ∨ c1 = 'o' ∨ c1 = 'O' ∨ c1 = 'x' ∨ c1 = 'X') then
      underscoreOKLoop (c1 = 'x' ∨ c1 = 'X') r '0'
    else underscoreOKLoop false s1 '^'
  | _ => underscoreOKLoop false s1 '^'

/-- The value `(-1)^isNeg * mant * 10^x` rounded to `float64`. -/
def decimalValue (isNeg : Bool) (mant : Nat) : Int → float64
  | Int.ofNat k => float64.round isNeg (mant * 10 ^ k) 1
  | Int.negSucc k => float64.round isNeg mant (10 ^ (k + 1))

/-- The function `readFloat` followed by the conversion of `atof64`, on an input
that must be consumed whole: the value denoted by a decimal or hexadecimal
floating-point literal, before the range check. -/
def readFloat (s : List Char) : Option float64 :=
  let isNeg := match s with
    | c :: _ => decide (c = '-')
    | [] => false
  let s1 := match s with
    | c :: r => if c = '+' ∨ c = '-' then r else s
    | [] => s
  let hex := match s1 with
    | c0 :: c1 :: _ :: _ => decide (c0 = '0' ∧ (c1 = 'x' ∨ c1 = 'X'))
    | _ => false
  let s2 := if hex then s1.drop 2 else s1
  let m := readMantissa hex s2 {}
  if m.1.sawdigits = false then none
  else
    let dp : Int := if m.1.sawdot then m.1.dp else m.1.nd
    match readExponent hex m.2 with
    | none => none
    | some (e, u, rest) =>
      if rest ≠ [] then none
      else if (m.1.underscores || u) && !underscoreOK s then none
      else if hex then some (float64.ofScaled isNeg m.1.mant (4 * (dp - m.1.nd) + e))
      else some (decimalValue isNeg m.1.mant (dp - m.1.nd + e))

/-- The function `strconv.ParseFloat(s, 64)`: `some f` when the returned error is
`nil`, `none` when it is a syntax error or a range error (a literal that rounds to
an infinity). -/
def ParseFloat (s : String) : Option float64 :=
  match special s.data with
  | some (f, n) => if n = s.data.length then some f else none
  | none =>
    match readFloat s.data with
    | some (float64.inf _) => none
    | r => r

end strconv

/-! ## The program: `cmd/calc_service/main.go` -/

/-- The errors the pipeline returns, one constructor per message:
`invalidChar ch i` is `fmt.Errorf("недопустимый символ '%c' на позиции %d", ch, i)`,
`unbalancedParens` is `"несбалансированные скобки"`,
`invalidNumber token` is `fmt.Errorf("некорректное число: %s", token)`,
`insufficientOperands` is `"недостаточно операндов для операции"`,
`divisionByZero` is `"деление на ноль"` and
`invalidExpression` is `"некорректное выражение"`. -/
inductive CalcError where
  | invalidChar (ch : Char) (pos : Nat)
  | unbalancedParens
  | invalidNumber (token : String)
  | insufficientOperands
  | divisionByZero
  | invalidExpression
  deriving DecidableEq, Repr

/-- The map `operatorPrecedence`, as its list of entries. -/
def operatorPrecedence : List (String × Int) :=
  [("+", 1), ("-", 1), ("*", 2), ("/", 2)]

/-- The index expression `operatorPrecedence[s]`: the zero value when the key is missing. -/
def precedence (s : String) : Int := (operatorPrecedence.lookup s).getD 0

/-- The function `isNumber`: `strconv.ParseFloat(s, 64)` returns no error. -/
def isNumber (s : String) : Bool := (strconv.ParseFloat s).isSome

/-- The function `isOperator`: `s` is a key of `operatorPrecedence`. -/
def isOperator (s : String) : Bool := (operatorPrecedence.lookup s).isSome

/-- The call `strings.ContainsRune(s, r)`. -/
def containsRune (s : String) (r : Char) : Bool := s.data.contains r

/-- The flush of `splitExpression`: a non-empty `numberBuilder` is appended to the
tokens as one token (and reset by the caller). -/
def flushNumber (tokens : List String) (numberBuilder : List Char) : List String :=
  if 0 < numberBuilder.length then tokens ++ [String.mk numberBuilder] else tokens

/-- The loop of `splitExpression` over the remaining characters: `i` is the byte
offset of the next character, `numberBuilder` the content of the builder. -/
def splitLoop : List Char → Nat → List String → List Char → Except CalcError (List String)
  | [], _, tokens, numberBuilder => .ok (flushNumber tokens numberBuilder)
  | ch :: rest, i, tokens, numberBuilder =>
    if unicode.IsSpace ch then splitLoop rest (i + utf8Len ch) tokens numberBuilder
    else if unicode.IsDigit ch || ch == '.' then
      splitLoop rest (i + utf8Len ch) tokens (numberBuilder ++ [ch])
    else if containsRune "+-*/()" ch then
      splitLoop rest (i + utf8Len ch) (flushNumber tokens numberBuilder ++ [String.mk [ch]]) []
    else .error (.invalidChar ch i)

/-- The function `splitExpression`. -/
def splitExpression (expr : String) : Except CalcError (List String) :=
  splitLoop expr.data 0 [] []

/-- The inner loop of the operator branch of `infixToPostfix`: operators on top of
the stack whose precedence is at least that of `token` move to the output.
Returns the output and the stack. -/
def popOperators (token : String) : List String → List String → List String × List String
  | output, [] => (output, [])
  | output, top :: stack =>
    if isOperator top && decide (precedence token ≤ precedence top) then
      popOperators token (output ++ [top]) stack
    else (output, top :: stack)

/-- The inner loop of the `")"` branch of `infixToPostfix`: the stack is popped to
the output until a `"("` is popped; `none` when `found` stays false. -/
def popUntilOpen : List String → List String → Option (List String × List String)
  | _, [] => none
  | output, top :: stack =>
    if top = "(" then some (output, stack) else popUntilOpen (output ++ [top]) stack

/-- The main loop of `infixToPostfix` over the remaining tokens; returns the output
and the stack. A token that is no number, no operator and no parenthesis changes
nothing. -/
def convertLoop :
    List String → List String → List String → Except CalcError (List String × List String)
  | [], output, stack => .ok (output, stack)
  | token :: rest, output, stack =>
    if isNumber token then convertLoop rest (output ++ [token]) stack
    else if isOperator token then
      convertLoop rest (popOperators token output stack).1
        (token :: (popOperators token output stack).2)
    else if token = "(" then convertLoop rest output (token :: stack)
    else if token = ")" then
      match popUntilOpen output stack with
      | none => .error .unbalancedParens
      | some r => convertLoop rest r.1 r.2
    else convertLoop rest output stack

/-- The final loop of `infixToPostfix`: the stack is popped to the output; a
parenthesis left on it is an error. -/
def drainStack : List String → List String → Except CalcError (List String)
  | output, [] => .ok output
  | output, top :: stack =>
    if top = "(" ∨ top = ")" then .error .unbalancedParens
    else drainStack (output ++ [top]) stack

/-- The function `infixToPostfix`. -/
def infixToPostfix (tokens : List String) : Except CalcError (List String) :=
  match convertLoop tokens [] [] with
  | .error err => .error err
  | .ok r => drainStack r.1 r.2

/-- The `switch token` of `computePostfix` on the operands `a` and `b`; `result`
keeps its zero value when no case matches. -/
def applyOperator (token : String) (a b : float64) : Except CalcError float64 :=
  if token = "+" then .ok (a.add b)
  else if token = "-" then .ok (a.sub b)
  else if token = "*" then .ok (a.mul b)
  else if token = "/" then
    if b.isZero then .error .divisionByZero else .ok (a.div b)
  else .ok (float64.fin false 0 0)

/-- The loop of `computePostfix` over the remaining tokens; returns the stack. -/
def evalLoop : List String → List float64 → Except CalcError (List float64)
  | [], stack => .ok stack
  | token :: rest, stack =>
    if isNumber token then
      match strconv.ParseFloat token with
      | none => .error (.invalidNumber token)
      | some num => evalLoop rest (num :: stack)
    else if isOperator token then
      match stack with
      | b :: a :: below =>
        match applyOperator token a b with
        | .error err => .error err
        | .ok result => evalLoop rest (result :: below)
      | _ => .error .insufficientOperands
    else evalLoop rest stack

/-- The function `computePostfix`: after the loop the stack must hold one value. -/
def computePostfix (rpn : List String) : Except CalcError float64 :=
  match evalLoop rpn [] with
  | .error err => .error err
  | .ok [result] => .ok result
  | .ok _ => .error .invalidExpression

/-- The function `Calc`. -/
def Calc (expression : String) : Except CalcError float64 :=
  match splitExpression expression with
  | .error err => .error err
  | .ok tokens =>
    match infixToPostfix tokens with
    | .error err => .error err
    | .ok rpn => computePostfix rpn

/-! ### Error messages and their classification by the handler -/

/-- The method `Error()` of the errors of the pipeline: the message text, with `%c`
and `%d` of `fmt.Errorf` filled in. -/
def CalcError.Error : CalcError → String
  | .invalidChar ch pos =>
    "недопустимый символ '" ++ String.mk [ch] ++ "' на позиции " ++ toString pos
  | .unbalancedParens => "несбалансированные скобки"
  | .invalidNumber token => "некорректное число: " ++ token
  | .insufficientOperands => "недостаточно операндов для операции"
  | .divisionByZero => "деление на ноль"
  | .invalidExpression => "некорректное выражение"

namespace strings

/-- The list `p` is an initial segment of `s`. -/
def startsWith : List Char → List Char → Bool
  | _, [] => true
  | [], _ :: _ => false
  | c :: s, d :: p => c == d && startsWith s p

/-- The list `sub` occurs in `s` as a block of consecutive characters. -/
def containsAt : List Char → List Char → Bool
  | [], sub => startsWith [] sub
  | c :: s, sub => startsWith (c :: s) sub || containsAt s sub

/-- The function `strings.Contains(s, substr)`. -/
def Contains (s substr : String) : Bool := containsAt s.data substr.data

end strings

/-- The function `isExpressionError`, on the message `err.Error()`: the `switch` on
the five fixed messages, then the four substring tests. -/
def isExpressionError (err : CalcError) : Bool :=
  if err.Error = "деление на ноль" ∨ err.Error = "некорректное выражение" ∨
      err.Error = "недопустимый символ" ∨ err.Error = "несбалансированные скобки" ∨
      err.Error = "недостаточно операндов для операции" then true
  else if strings.Contains err.Error "недопустимый символ" ||
      strings.Contains err.Error "несбалансированные скобки" ||
      strings.Contains err.Error "деление на ноль" ||
      strings.Contains err.Error "некорректное выражение" then true
  else false

/-- The status code and the `error` field of the response of `calculateHandler` to a
POST request whose JSON body decodes to `expression`: 422 with
`"Expression is not valid"` for an expression error, 500 with
`"Internal server error"` for any other error, 200 on success. -/
def calculateHandler (expression : String) : Nat × Option String :=
  match Calc expression with
  | .error calcErr =>
    if isExpressionError calcErr then (422, some "Expression is not valid")
    else (500, some "Internal server error")
  | .ok _ => (200, none)

/-! ## Definitions used to state and prove the properties -/

/-- One iteration of the loop of `computePostfix`, as a function of the stack. -/
def evalStep (token : String) (stack : List float64) : Except CalcError (List float64) :=
  evalLoop [token] stack


/-- The token sequence has unbalanced parentheses: some initial segment holds more
`")"` than `"("` tokens (a stray close), or the whole sequence holds more `"("` than
`")"` tokens (an unclosed open). -/
def Unbalanced (tokens : List String) : Prop :=
  (∃ k, k ≤ tokens.length ∧ (tokens.take k).count "(" < (tokens.take k).count ")") ∨
    tokens.count ")" < tokens.count "("

/-- Nesting depth after the tokens, starting from depth `d`; `none` as soon as a `")"`
arrives at depth `0`. -/
def parenScan : List String → Nat → Option Nat
  | [], d => some d
  | t :: ts, d =>
    if t = "(" then parenScan ts (d + 1)
    else if t = ")" then (if d = 0 then none else parenScan ts (d - 1))
    else parenScan ts d

/-- A character `splitExpression` accepts: white space, a digit, `'.'`, or one of
`+ - * / ( )`. -/
def allowedChar (ch : Char) : Bool :=
  unicode.IsSpace ch || unicode.IsDigit ch || ch == '.' || containsRune "+-*/()" ch

/-- The string without its white space characters. -/
def removeSpaces (s : String) : String :=
  String.mk (s.data.filter fun ch => !unicode.IsSpace ch)

/-- The kinds of error of the pipeline. -/
inductive ErrorKind where
  | lexical
  | unbalancedParentheses
  | numericFormat
  | insufficientOperands
  | divisionByZero
  | invalidExpression
  deriving DecidableEq, Repr

/-- The kind of an error: its message without the character, position or token. -/
def CalcError.kind : CalcError → ErrorKind
  | .invalidChar _ _ => .lexical
  | .unbalancedParens => .unbalancedParentheses
  | .invalidNumber _ => .numericFormat
  | .insufficientOperands => .insufficientOperands
  | .divisionByZero => .divisionByZero
  | .invalidExpression => .invalidExpression

/-- Two results agree: the same value, or errors of the same kind. -/
def Agree : Except CalcError float64 → Except CalcError float64 → Prop
  | .ok v, .ok w => v = w
  | .error e, .error f => e.kind = f.kind
  | _, _ => False

/-- A result with the position of a lexical error set to `0`. -/
def forgetPos {α : Type} : Except CalcError α → Except CalcError α
  | .error (.invalidChar ch _) => .error (.invalidChar ch 0)
  | r => r

/-! ### Parse trees of the expression grammar -/

/-- The four binary operators. -/
inductive BinOp where
  | add
  | sub
  | mul
  | div
  deriving DecidableEq, Repr

/-- The token of an operator. -/
def BinOp.token : BinOp → String
  | .add => "+"
  | .sub => "-"
  | .mul => "*"
  | .div => "/"

/-- The value of `a op b` in `float64` arithmetic. -/
def BinOp.value : BinOp → float64 → float64 → float64
  | .add, a, b => a.add b
  | .sub, a, b => a.sub b
  | .mul, a, b => a.mul b
  | .div, a, b => a.div b

/-- The value of `a op b`; `none` when a division has a right operand equal to zero. -/
def BinOp.apply : BinOp → float64 → float64 → Option float64
  | .add, a, b => some (a.add b)
  | .sub, a, b => some (a.sub b)
  | .mul, a, b => some (a.mul b)
  | .div, a, b => if b.isZero then none else some (a.div b)

/-- A parse tree: a number literal, a parenthesized expression, or a binary operation. -/
inductive Expr where
  | num (lit : String)
  | paren (e : Expr)
  | binary (op : BinOp) (l r : Expr)
  deriving DecidableEq, Repr

/-- The text of an expression, without white space. -/
def Expr.text : Expr → String
  | .num lit => lit
  | .paren e => "(" ++ e.text ++ ")"
  | .binary op l r => l.text ++ op.token ++ r.text

/-- The tokens of an expression, in the order of its text. -/
def Expr.tokens : Expr → List String
  | .num lit => [lit]
  | .paren e => "(" :: e.tokens ++ [")"]
  | .binary op l r => l.tokens ++ op.token :: r.tokens

/-- The post-order traversal of the parse tree: left operand, right operand, operator. -/
def Expr.postorder : Expr → List String
  | .num lit => [lit]
  | .paren e => e.postorder
  | .binary op l r => l.postorder ++ r.postorder ++ [op.token]

/-- The value of the parse tree, by recursion: the literals are read by
`strconv.ParseFloat`, the left operand is evaluated before the right one, and the
result is `none` when an operation has none. -/
def Expr.eval : Expr → Option float64
  | .num lit => strconv.ParseFloat lit
  | .paren e => e.eval
  | .binary op l r =>
    match l.eval with
    | none => none
    | some a =>
      match r.eval with
      | none => none
      | some b => op.apply a b

/-- Some division of the tree has a right operand that evaluates to zero. -/
def Expr.dividesByZero : Expr → Bool
  | .num _ => false
  | .paren e => e.dividesByZero
  | .binary op l r =>
    l.dividesByZero || r.dividesByZero ||
      (op == .div && match r.eval with
        | some b => b.isZero
        | none => false)

/-- A sign-less decimal literal that parses as a number: decimal digits and dots,
accepted by `strconv.ParseFloat`. -/
def decimalLiteral (lit : String) : Bool :=
  lit.data.all (fun c => strconv.isDecDigit c || c == '.') && isNumber lit

/-- The nonterminals of the grammar
`E -> E (+|-) T | T`, `T -> T (*|/) F | F`, `F -> number | ( E )`. -/
inductive Sym where
  | E
  | T
  | F
  deriving DecidableEq, Repr

/-- The tree `e` is a parse tree of the nonterminal: one constructor per production. -/
inductive Derives : Sym → Expr → Prop where
  | add {l r : Expr} : Derives .E l → Derives .T r → Derives .E (.binary .add l r)
  | sub {l r : Expr} : Derives .E l → Derives .T r → Derives .E (.binary .sub l r)
  | term {t : Expr} : Derives .T t → Derives .E t
  | mul {l r : Expr} : Derives .T l → Derives .F r → Derives .T (.binary .mul l r)
  | div {l r : Expr} : Derives .T l → Derives .F r → Derives .T (.binary .div l r)
  | factor {f : Expr} : Derives .F f → Derives .T f
  | num {lit : String} : decimalLiteral lit = true → Derives .F (.num lit)
  | paren {e : Expr} : Derives .E e → Derives .F (.paren e)

/-- The least precedence of an operator at the top level of a parse tree of the
nonterminal (3 stands for none). -/
def Sym.minPrec : Sym → Int
  | .E => 1
  | .T => 2
  | .F => 3

/-- The top of the stack is no operator that a parse tree of the nonterminal would
have to wait for: the stack is empty or its top is not an operator of precedence
`sym.minPrec` or more. -/
def BaseOk (sym : Sym) : List String → Prop
  | [] => True
  | top :: _ => ¬ (isOperator top = true ∧ sym.minPrec ≤ precedence top)

/-- The rest of the input does not continue a number: it is empty or starts with one
of `+ - * / ( )`. -/
def Boundary : List Char → Prop
  | [] => True
  | c :: _ => containsRune "+-*/()" c = true

/-! ### Invariants of the conversion and of the evaluation -/

/-- The state of the conversion accounts for `n` number and operator tokens: the
output and the operators on the stack are `n` together, the output holds numbers and
operators only, the stack operators and `"("` only. -/
def ConvInv (out st : List String) (n : Nat) : Prop :=
  out.length + st.countP isOperator = n ∧
    (∀ x ∈ out, isNumber x = true ∨ isOperator x = true) ∧
    (∀ x ∈ st, isOperator x = true ∨ x = "(")

/-- Height of the operand stack after the tokens, starting from height `h`; `none` as
soon as an operator arrives at a height below 2. -/
def heightScan : List String → Nat → Option Nat
  | [], h => some h
  | t :: ts, h =>
    if isNumber t then heightScan ts (h + 1)
    else if isOperator t then (if h < 2 then none else heightScan ts (h - 1))
    else heightScan ts h

/-- Every non-empty initial segment of the sequence holds more numbers than operators. -/
def PrefixesOk (ts : List String) : Prop :=
  ∀ k, 0 < k → k ≤ ts.length →
    (ts.take k).countP isOperator < (ts.take k).countP isNumber

/-! ### Shape of the tokens and of well-formed token sequences -/

/-- The tokens concatenated in order. -/
def concatTokens : List String → String
  | [] => ""
  | t :: ts => t ++ concatTokens ts

/-- A token of the tokenizer: not empty, and either one character among
`+ - * / ( )` or a string of digits and dots. -/
def TokenShape (t : String) : Prop :=
  t ≠ "" ∧
    ((∃ c, t = String.mk [c] ∧ containsRune "+-*/()" c = true) ∨
      ∀ c ∈ t.data, unicode.IsDigit c = true ∨ c = '.')

/-- Operands and operators alternate in the token sequence: where an operand is
expected (`operand = true`) comes a number or a `"("`, after an operand comes an
operator, a `")"` or the end. -/
def alternates : Bool → List String → Bool
  | true, [] => false
  | false, [] => true
  | true, t :: ts =>
    if t = "(" then alternates true ts
    else if isNumber t then alternates false ts
    else false
  | false, t :: ts =>
    if isOperator t then alternates true ts
    else if t = ")" then alternates false ts
    else false


/-! ## Basic facts about the operator table and the number test -/

theorem isOperator_iff (s : String) :
    isOperator s = true ↔ s = "+" ∨ s = "-" ∨ s = "*" ∨ s = "/" := by
  unfold isOperator operatorPrecedence
  by_cases h1 : s = "+"
  · subst h1; decide
  by_cases h2 : s = "-"
  · subst h2; decide
  by_cases h3 : s = "*"
  · subst h3; decide
  by_cases h4 : s = "/"
  · subst h4; decide
  have e1 : (s == "+") = false := by simpa using h1
  have e2 : (s == "-") = false := by simpa using h2
  have e3 : (s == "*") = false := by simpa using h3
  have e4 : (s == "/") = false := by simpa using h4
  simp [List.lookup, e1, e2, e3, e4, h1, h2, h3, h4]

theorem isNumber_of_isOperator {s : String} (h : isOperator s = true) : isNumber s = false := by
  rcases (isOperator_iff s).1 h with rfl | rfl | rfl | rfl <;> decide

theorem isNumber_open : isNumber "(" = false := by decide

theorem isNumber_close : isNumber ")" = false := by decide

theorem isOperator_open : isOperator "(" = false := by decide

theorem isOperator_close : isOperator ")" = false := by decide

theorem precedence_values :
    precedence "+" = 1 ∧ precedence "-" = 1 ∧ precedence "*" = 2 ∧ precedence "/" = 2 := by
  decide


theorem evalLoop_cons (t : String) (rest : List String) (s : List float64) :
    evalLoop (t :: rest) s =
      match evalStep t s with
      | .error err => .error err
      | .ok s1 => evalLoop rest s1 := by
  unfold evalStep
  by_cases hn : isNumber t = true
  · cases hp : strconv.ParseFloat t with
    | none => simp [evalLoop, hn, hp]
    | some v => simp [evalLoop, hn, hp]
  · by_cases ho : isOperator t = true
    · match s with
      | [] => simp [evalLoop, hn, ho]
      | [b] => simp [evalLoop, hn, ho]
      | b :: a :: below =>
        cases ha : applyOperator t a b with
        | error e => simp [evalLoop, hn, ho, ha]
        | ok r => simp [evalLoop, hn, ho, ha]
    · simp [evalLoop, hn, ho]

theorem evalStep_frame (t : String) (s s1 base : List float64)
    (h : evalStep t s = .ok s1) : evalStep t (s ++ base) = .ok (s1 ++ base) := by
  unfold evalStep at h ⊢
  by_cases hn : isNumber t = true
  · cases hp : strconv.ParseFloat t with
    | none => simp [evalLoop, hn, hp] at h
    | some v =>
      simp [evalLoop, hn, hp] at h
      simp [evalLoop, hn, hp, ← h]
  · by_cases ho : isOperator t = true
    · match s with
      | [] => simp [evalLoop, hn, ho] at h
      | [b] => simp [evalLoop, hn, ho] at h
      | b :: a :: below =>
        cases ha : applyOperator t a b with
        | error e => simp [evalLoop, hn, ho, ha] at h
        | ok r =>
          simp [evalLoop, hn, ho, ha] at h
          simp [evalLoop, hn, ho, ha, ← h]
    · simp [evalLoop, hn, ho] at h
      simp [evalLoop, hn, ho, h]

theorem evalLoop_append (p q : List String) (s : List float64) :
    evalLoop (p ++ q) s =
      match evalLoop p s with
      | .error err => .error err
      | .ok s1 => evalLoop q s1 := by
  induction p generalizing s with
  | nil => simp [evalLoop]
  | cons t p ih =>
    rw [List.cons_append, evalLoop_cons, evalLoop_cons t p]
    cases evalStep t s with
    | error e => rfl
    | ok s1 => exact ih s1

theorem evalLoop_frame (q : List String) (s s1 base : List float64)
    (h : evalLoop q s = .ok s1) : evalLoop q (s ++ base) = .ok (s1 ++ base) := by
  induction q generalizing s with
  | nil =>
    simp only [evalLoop, Except.ok.injEq] at h ⊢
    rw [h]
  | cons t q ih =>
    rw [evalLoop_cons] at h ⊢
    cases hs : evalStep t s with
    | error e => rw [hs] at h; cases h
    | ok s2 =>
      rw [hs] at h
      rw [evalStep_frame t s s2 base hs]
      exact ih s2 h

theorem computePostfix_ok_iff (p : List String) (v : float64) :
    computePostfix p = .ok v ↔ evalLoop p [] = .ok [v] := by
  unfold computePostfix
  cases h : evalLoop p [] with
  | error e => simp
  | ok st =>
    match st with
    | [] => simp
    | [w] => simp
    | _ :: _ :: _ => simp

/-! ## Postfix evaluation: division by zero and missing operands -/

/-- C3: when `computePostfix p` succeeds and `computePostfix q` succeeds with a value
equal to zero, `computePostfix (p ++ q ++ ["/"])` fails with the divide-by-zero error
(an error result carries no value); so do `computePostfix ["2", "0", "/"]`,
`Calc "2/0"` and `Calc "5/0"`. -/
theorem computePostfix_division_by_zero (p q : List String) (a b : float64)
    (hp : computePostfix p = .ok a) (hq : computePostfix q = .ok b)
    (hz : b.isZero = true) :
    computePostfix (p ++ q ++ ["/"]) = .error .divisionByZero ∧
      computePostfix ["2", "0", "/"] = .error .divisionByZero ∧
      Calc "2/0" = .error .divisionByZero ∧ Calc "5/0" = .error .divisionByZero := by
  refine ⟨?_, by decide, by decide, by decide⟩
  have h1 := (computePostfix_ok_iff p a).1 hp
  have h2 := evalLoop_frame q [] [b] [a] ((computePostfix_ok_iff q b).1 hq)
  have h3 : evalLoop ["/"] [b, a] = .error .divisionByZero := by
    have hn : isNumber "/" = false := by decide
    have ho : isOperator "/" = true := by decide
    simp [evalLoop, hn, ho, applyOperator, hz]
  unfold computePostfix
  rw [List.append_assoc, evalLoop_append, h1]
  simp only []
  rw [evalLoop_append]
  simp only [List.nil_append, List.singleton_append] at h2
  rw [h2]
  simp only []
  rw [h3]

/-- Witness of C3 at `p = ["2"]`, `q = ["0"]`. -/
theorem computePostfix_division_by_zero_witness :
    computePostfix ["2"] = .ok (float64.ofNat 2) ∧ computePostfix ["0"] = .ok (float64.ofNat 0) ∧
      (float64.ofNat 0).isZero = true ∧
      computePostfix (["2"] ++ ["0"] ++ ["/"]) = .error .divisionByZero :=
  ⟨by decide, by decide, by decide,
    (computePostfix_division_by_zero ["2"] ["0"] (float64.ofNat 2) (float64.ofNat 0)
      (by decide) (by decide) (by decide)).1⟩

/-- C9: on a sequence whose first token is an operator `computePostfix` fails with the
insufficient-operands error, whatever follows; so it does on `["+", "2", "3"]`. -/
theorem computePostfix_operator_first (op : String) (rest : List String)
    (hop : isOperator op = true) :
    computePostfix (op :: rest) = .error .insufficientOperands ∧
      computePostfix ["+", "2", "3"] = .error .insufficientOperands := by
  refine ⟨?_, by decide⟩
  have hn := isNumber_of_isOperator hop
  simp [computePostfix, evalLoop, hn, hop]

/-- Witness of C9 at the operator `"*"` followed by two numbers. -/
theorem computePostfix_operator_first_witness :
    isOperator "*" = true ∧ computePostfix ("*" :: ["4", "5"]) = .error .insufficientOperands :=
  ⟨by decide, (computePostfix_operator_first "*" ["4", "5"] (by decide)).1⟩

/-! ## Conversion of three operands and two operators -/

/-- C2: for number tokens `a`, `b`, `c` and operators `o1`, `o2`,
`infixToPostfix [a, o1, b, o2, c]` succeeds with `[a, b, o1, c, o2]` when
`precedence o1 ≥ precedence o2` and with `[a, b, c, o2, o1]` otherwise, where `+` and
`-` have precedence 1 and `*` and `/` precedence 2. -/
theorem infixToPostfix_two_operators (a b c o1 o2 : String)
    (ha : isNumber a = true) (hb : isNumber b = true) (hc : isNumber c = true)
    (h1 : isOperator o1 = true) (h2 : isOperator o2 = true) :
    infixToPostfix [a, o1, b, o2, c] =
        .ok (if precedence o2 ≤ precedence o1 then [a, b, o1, c, o2] else [a, b, c, o2, o1]) ∧
      (precedence "+" = 1 ∧ precedence "-" = 1 ∧ precedence "*" = 2 ∧ precedence "/" = 2) ∧
      infixToPostfix ["6", "-", "2", "-", "1"] = .ok ["6", "2", "-", "1", "-"] ∧
      infixToPostfix ["8", "/", "4", "/", "2"] = .ok ["8", "4", "/", "2", "/"] ∧
      infixToPostfix ["2", "+", "3", "*", "4"] = .ok ["2", "3", "4", "*", "+"] := by
  refine ⟨?_, precedence_values, by decide, by decide, by decide⟩
  have n1 := isNumber_of_isOperator h1
  have n2 := isNumber_of_isOperator h2
  have p1 : o1 ≠ "(" ∧ o1 ≠ ")" := by
    rcases (isOperator_iff o1).1 h1 with rfl | rfl | rfl | rfl <;> decide
  have p2 : o2 ≠ "(" ∧ o2 ≠ ")" := by
    rcases (isOperator_iff o2).1 h2 with rfl | rfl | rfl | rfl <;> decide
  by_cases hle : precedence o2 ≤ precedence o1
  · simp [infixToPostfix, convertLoop, popOperators, drainStack, ha, hb, hc, h1, h2, n1, n2,
      hle, p1.1, p1.2, p2.1, p2.2]
  · simp [infixToPostfix, convertLoop, popOperators, drainStack, ha, hb, hc, h1, h2, n1, n2,
      hle, p1.1, p1.2, p2.1, p2.2]

/-- Witness of C2 at `2 + 3 * 4`, where the second operator binds tighter. -/
theorem infixToPostfix_two_operators_witness :
    isNumber "2" = true ∧ isNumber "3" = true ∧ isNumber "4" = true ∧
      isOperator "+" = true ∧ isOperator "*" = true ∧
      infixToPostfix ["2", "+", "3", "*", "4"] = .ok ["2", "3", "4", "*", "+"] :=
  ⟨by decide, by decide, by decide, by decide, by decide,
    (infixToPostfix_two_operators "2" "3" "4" "+" "*"
      (by decide) (by decide) (by decide) (by decide) (by decide)).1⟩

/-! ## Parenthesis balance decides the success of the conversion -/

theorem count_open_cons (t : String) (l : List String) :
    (t :: l).count "(" = l.count "(" + if t = "(" then 1 else 0 := by
  rw [List.count_cons]; simp

theorem count_close_cons (t : String) (l : List String) :
    (t :: l).count ")" = l.count ")" + if t = ")" then 1 else 0 := by
  rw [List.count_cons]; simp

theorem parenScan_none (ts : List String) (d : Nat) (h : parenScan ts d = none) :
    ∃ k, k ≤ ts.length ∧ (ts.take k).count "(" + d < (ts.take k).count ")" := by
  induction ts generalizing d with
  | nil => simp [parenScan] at h
  | cons t ts ih =>
    by_cases ho : t = "("
    · subst ho
      simp only [parenScan, if_true] at h
      obtain ⟨k, hk, hlt⟩ := ih (d + 1) h
      refine ⟨k + 1, by simpa using hk, ?_⟩
      simp only [List.take_succ_cons, count_open_cons, count_close_cons]
      simp
      omega
    · by_cases hc : t = ")"
      · subst hc
        by_cases hd : d = 0
        · subst hd
          exact ⟨1, by simp, by simp⟩
        · simp only [parenScan, hd, if_false] at h
          simp at h
          obtain ⟨k, hk, hlt⟩ := ih (d - 1) h
          refine ⟨k + 1, by simpa using hk, ?_⟩
          simp only [List.take_succ_cons, count_open_cons, count_close_cons]
          simp
          omega
      · simp only [parenScan, ho, hc, if_false] at h
        obtain ⟨k, hk, hlt⟩ := ih d h
        refine ⟨k + 1, by simpa using hk, ?_⟩
        simp only [List.take_succ_cons, count_open_cons, count_close_cons, ho, hc, if_false]
        simpa using hlt

theorem parenScan_some (ts : List String) (d r : Nat) (h : parenScan ts d = some r) :
    (∀ k, (ts.take k).count ")" ≤ (ts.take k).count "(" + d) ∧
      r + ts.count ")" = d + ts.count "(" := by
  induction ts generalizing d with
  | nil =>
    simp only [parenScan, Option.some.injEq] at h
    simp [h]
  | cons t ts ih =>
    by_cases ho : t = "("
    · subst ho
      simp only [parenScan, if_true] at h
      obtain ⟨h1, h2⟩ := ih (d + 1) h
      constructor
      · intro k
        cases k with
        | zero => simp
        | succ k =>
          have := h1 k
          simp only [List.take_succ_cons, count_open_cons, count_close_cons]
          simp
          omega
      · simp only [count_open_cons, count_close_cons]
        simp
        omega
    · by_cases hc : t = ")"
      · subst hc
        by_cases hd : d = 0
        · simp [parenScan, hd] at h
        · simp only [parenScan, hd, if_false] at h
          simp at h
          obtain ⟨h1, h2⟩ := ih (d - 1) h
          constructor
          · intro k
            cases k with
            | zero => simp
            | succ k =>
              have := h1 k
              simp only [List.take_succ_cons, count_open_cons, count_close_cons]
              simp
              omega
          · simp only [count_open_cons, count_close_cons]
            simp
            omega
      · simp only [parenScan, ho, hc, if_false] at h
        obtain ⟨h1, h2⟩ := ih d h
        constructor
        · intro k
          cases k with
          | zero => simp
          | succ k =>
            have := h1 k
            simp only [List.take_succ_cons, count_open_cons, count_close_cons, ho, hc, if_false]
            simpa using this
        · simp only [count_open_cons, count_close_cons, ho, hc, if_false]
          simpa using h2

theorem popOperators_stack (t : String) (out st : List String) :
    ((popOperators t out st).2).count "(" = st.count "(" ∧
      ∀ x ∈ (popOperators t out st).2, x ∈ st := by
  induction st generalizing out with
  | nil => simp [popOperators]
  | cons top st ih =>
    unfold popOperators
    split
    · rename_i hcond
      obtain ⟨h1, h2⟩ := ih (out ++ [top])
      have htop : top ≠ "(" := by
        intro h; subst h
        simp [isOperator_open] at hcond
      refine ⟨?_, fun x hx => List.mem_cons_of_mem _ (h2 x hx)⟩
      rw [h1, count_open_cons]; simp [htop]
    · exact ⟨rfl, fun x hx => hx⟩

theorem popUntilOpen_none (out st : List String) (h : st.count "(" = 0) :
    popUntilOpen out st = none := by
  induction st generalizing out with
  | nil => rfl
  | cons top st ih =>
    rw [count_open_cons] at h
    have htop : top ≠ "(" := by
      intro h'; subst h'; simp at h
    simp only [htop, if_false, Nat.add_zero] at h
    simp [popUntilOpen, htop, ih _ h]

theorem popUntilOpen_some (out st : List String) (n : Nat) (h : st.count "(" = n + 1) :
    ∃ r, popUntilOpen out st = some r ∧ r.2.count "(" = n ∧ ∀ x ∈ r.2, x ∈ st := by
  induction st generalizing out with
  | nil => simp at h
  | cons top st ih =>
    rw [count_open_cons] at h
    by_cases htop : top = "("
    · subst htop
      simp only [if_true] at h
      exact ⟨(out, st), by simp [popUntilOpen], by simpa using h,
        fun x hx => List.mem_cons_of_mem _ hx⟩
    · simp only [htop, if_false, Nat.add_zero] at h
      obtain ⟨r, h1, h2, h3⟩ := ih (out ++ [top]) h
      exact ⟨r, by simp [popUntilOpen, htop, h1], h2, fun x hx => List.mem_cons_of_mem _ (h3 x hx)⟩

/-- The main loop of the conversion follows the nesting depth: it fails exactly when
a `")"` arrives at depth `0`, and otherwise ends with that many `"("` on the stack. -/
theorem convertLoop_parenScan (ts out st : List String) (hst : ∀ x ∈ st, x ≠ ")") :
    match parenScan ts (st.count "(") with
    | none => convertLoop ts out st = .error .unbalancedParens
    | some d => ∃ r, convertLoop ts out st = .ok r ∧ r.2.count "(" = d ∧ ∀ x ∈ r.2, x ≠ ")" := by
  induction ts generalizing out st with
  | nil => exact ⟨(out, st), rfl, rfl, hst⟩
  | cons t ts ih =>
    by_cases ho : t = "("
    · subst ho
      have hst1 : ∀ x ∈ "(" :: st, x ≠ ")" := by
        intro x hx
        rcases List.mem_cons.1 hx with rfl | hx
        · decide
        · exact hst x hx
      have := ih out ("(" :: st) hst1
      simp only [count_open_cons, if_true] at this
      simpa [parenScan, convertLoop, isNumber_open, isOperator_open] using this
    · by_cases hc : t = ")"
      · subst hc
        cases hd : st.count "(" with
        | zero =>
          simp [parenScan, convertLoop, isNumber_close, isOperator_close,
            popUntilOpen_none out st hd]
        | succ n =>
          obtain ⟨r, h1, h2, h3⟩ := popUntilOpen_some out st n hd
          have := ih r.1 r.2 (fun x hx => hst x (h3 x hx))
          rw [h2] at this
          simpa [parenScan, convertLoop, isNumber_close, isOperator_close, h1] using this
      · by_cases hn : isNumber t = true
        · have := ih (out ++ [t]) st hst
          simpa [parenScan, convertLoop, ho, hc, hn] using this
        · by_cases hop : isOperator t = true
          · obtain ⟨h1, h2⟩ := popOperators_stack t out st
            have hst1 : ∀ x ∈ t :: (popOperators t out st).2, x ≠ ")" := by
              intro x hx
              rcases List.mem_cons.1 hx with rfl | hx
              · exact hc
              · exact hst x (h2 x hx)
            have := ih (popOperators t out st).1 (t :: (popOperators t out st).2) hst1
            rw [count_open_cons, h1] at this
            simp only [ho, if_false, Nat.add_zero] at this
            simpa [parenScan, convertLoop, ho, hc, hn, hop] using this
          · have := ih out st hst
            simpa [parenScan, convertLoop, ho, hc, hn, hop] using this

theorem drainStack_ok (out st : List String) (h0 : st.count "(" = 0)
    (hst : ∀ x ∈ st, x ≠ ")") : ∃ o, drainStack out st = .ok o := by
  induction st generalizing out with
  | nil => exact ⟨out, rfl⟩
  | cons top st ih =>
    rw [count_open_cons] at h0
    have h1 : top ≠ "(" := by
      intro h; subst h; simp at h0
    have h2 : top ≠ ")" := hst top (List.mem_cons_self _ _)
    simp only [h1, if_false, Nat.add_zero] at h0
    obtain ⟨o, ho⟩ := ih (out ++ [top]) h0 (fun x hx => hst x (List.mem_cons_of_mem _ hx))
    exact ⟨o, by simp [drainStack, h1, h2, ho]⟩

theorem drainStack_error (out st : List String) (h0 : 0 < st.count "(") :
    drainStack out st = .error .unbalancedParens := by
  induction st generalizing out with
  | nil => simp at h0
  | cons top st ih =>
    rw [count_open_cons] at h0
    by_cases h1 : top = "("
    · simp [drainStack, h1]
    · by_cases h2 : top = ")"
      · simp [drainStack, h2]
      · simp only [h1, if_false, Nat.add_zero] at h0
        simp [drainStack, h1, h2, ih _ h0]

/-- The result of `infixToPostfix` in terms of the nesting depth of the tokens. -/
theorem infixToPostfix_parenScan (ts : List String) :
    (parenScan ts 0 = some 0 ∧ ∃ o, infixToPostfix ts = .ok o) ∨
      (parenScan ts 0 ≠ some 0 ∧ infixToPostfix ts = .error .unbalancedParens) := by
  have h := convertLoop_parenScan ts [] [] (by simp)
  simp only [List.count_nil] at h
  cases hs : parenScan ts 0 with
  | none =>
    rw [hs] at h
    right
    exact ⟨by simp, by simp [infixToPostfix, h]⟩
  | some d =>
    rw [hs] at h
    obtain ⟨r, h1, h2, h3⟩ := h
    cases d with
    | zero =>
      left
      obtain ⟨o, ho⟩ := drainStack_ok r.1 r.2 h2 h3
      exact ⟨rfl, o, by simp [infixToPostfix, h1, ho]⟩
    | succ d =>
      right
      exact ⟨by simp, by simp [infixToPostfix, h1, drainStack_error r.1 r.2 (by omega)]⟩

theorem parenScan_ne_iff_unbalanced (ts : List String) :
    parenScan ts 0 ≠ some 0 ↔ Unbalanced ts := by
  unfold Unbalanced
  cases hs : parenScan ts 0 with
  | none =>
    obtain ⟨k, hk, hlt⟩ := parenScan_none ts 0 hs
    simp only [ne_eq, not_false_eq_true, true_iff, reduceCtorEq]
    exact Or.inl ⟨k, hk, by simpa using hlt⟩
  | some d =>
    obtain ⟨h1, h2⟩ := parenScan_some ts 0 d hs
    constructor
    · intro hne
      right
      have : d ≠ 0 := fun h => hne (by rw [h])
      omega
    · rintro (⟨k, _, hlt⟩ | hlt)
      · have := h1 k
        omega
      · intro h
        simp only [Option.some.injEq] at h
        omega

/-- C4: `infixToPostfix` fails if and only if the parentheses of the token sequence
are unbalanced (a stray `")"` in some initial segment, or more `"("` than `")"` overall),
and the error is then the unbalanced-parentheses error; the token sequences of
`"(1+2"` and `"1+2)"` and the sequence `["(", "2", "+"]` are rejected. -/
theorem infixToPostfix_fails_iff_unbalanced (tokens : List String) :
    ((∃ err, infixToPostfix tokens = .error err) ↔ Unbalanced tokens) ∧
      (∀ err, infixToPostfix tokens = .error err → err = .unbalancedParens) ∧
      (splitExpression "(1+2" = .ok ["(", "1", "+", "2"] ∧
        infixToPostfix ["(", "1", "+", "2"] = .error .unbalancedParens) ∧
      (splitExpression "1+2)" = .ok ["1", "+", "2", ")"] ∧
        infixToPostfix ["1", "+", "2", ")"] = .error .unbalancedParens) ∧
      infixToPostfix ["(", "2", "+"] = .error .unbalancedParens := by
  refine ⟨?_, ?_, ⟨by decide, by decide⟩, ⟨by decide, by decide⟩, by decide⟩
  · rw [← parenScan_ne_iff_unbalanced]
    rcases infixToPostfix_parenScan tokens with ⟨h1, o, h2⟩ | ⟨h1, h2⟩
    · simp [h1, h2]
    · simp [h1, h2]
  · intro err herr
    rcases infixToPostfix_parenScan tokens with ⟨_, o, h2⟩ | ⟨_, h2⟩
    · rw [h2] at herr; cases herr
    · rw [h2] at herr
      simp only [Except.error.injEq] at herr
      exact herr.symm

/-! ## The tokenizer -/

theorem splitLoop_space (ch : Char) (rest : List Char) (i : Nat) (tokens : List String)
    (nb : List Char) (h : unicode.IsSpace ch = true) :
    splitLoop (ch :: rest) i tokens nb = splitLoop rest (i + utf8Len ch) tokens nb := by
  simp [splitLoop, h]

theorem splitLoop_digit (ch : Char) (rest : List Char) (i : Nat) (tokens : List String)
    (nb : List Char) (hs : unicode.IsSpace ch = false)
    (h : (unicode.IsDigit ch || ch == '.') = true) :
    splitLoop (ch :: rest) i tokens nb = splitLoop rest (i + utf8Len ch) tokens (nb ++ [ch]) := by
  rw [splitLoop]
  simp only [hs, h, if_true]
  simp

theorem splitLoop_symbol (ch : Char) (rest : List Char) (i : Nat) (tokens : List String)
    (nb : List Char) (hs : unicode.IsSpace ch = false)
    (hd : (unicode.IsDigit ch || ch == '.') = false) (h : containsRune "+-*/()" ch = true) :
    splitLoop (ch :: rest) i tokens nb =
      splitLoop rest (i + utf8Len ch) (flushNumber tokens nb ++ [String.mk [ch]]) [] := by
  rw [splitLoop]
  simp only [hs, hd, h, if_true]
  simp

theorem splitLoop_invalid (ch : Char) (rest : List Char) (i : Nat) (tokens : List String)
    (nb : List Char) (h : allowedChar ch = false) :
    splitLoop (ch :: rest) i tokens nb = .error (.invalidChar ch i) := by
  unfold allowedChar at h
  simp only [Bool.or_eq_false_iff] at h
  obtain ⟨⟨⟨h1, h2⟩, h3⟩, h4⟩ := h
  rw [splitLoop]
  simp [h1, h2, h3, h4]

theorem splitLoop_allowed (ch : Char) (rest : List Char) (i : Nat) (tokens : List String)
    (nb : List Char) (h : allowedChar ch = true) :
    ∃ tokens1 nb1, splitLoop (ch :: rest) i tokens nb =
      splitLoop rest (i + utf8Len ch) tokens1 nb1 := by
  by_cases hs : unicode.IsSpace ch = true
  · exact ⟨_, _, splitLoop_space ch rest i tokens nb hs⟩
  · simp only [Bool.not_eq_true] at hs
    by_cases hd : (unicode.IsDigit ch || ch == '.') = true
    · exact ⟨_, _, splitLoop_digit ch rest i tokens nb hs hd⟩
    · simp only [Bool.not_eq_true] at hd
      have hc : containsRune "+-*/()" ch = true := by
        unfold allowedChar at h
        simp only [Bool.or_eq_false_iff] at hd
        simpa [hs, hd.1, hd.2] using h
      exact ⟨_, _, splitLoop_symbol ch rest i tokens nb hs hd hc⟩

/-- On allowed characters followed by one that is not, the tokenizer fails at that
character, with the byte offset at which it starts. -/
theorem splitLoop_error (pre : List Char) (ch : Char) (post : List Char) (i : Nat)
    (tokens : List String) (nb : List Char) (hpre : ∀ c ∈ pre, allowedChar c = true)
    (hch : allowedChar ch = false) :
    splitLoop (pre ++ ch :: post) i tokens nb = .error (.invalidChar ch (i + utf8Size pre)) := by
  induction pre generalizing i tokens nb with
  | nil => simpa [utf8Size] using splitLoop_invalid ch post i tokens nb hch
  | cons c pre ih =>
    obtain ⟨t1, n1, h1⟩ :=
      splitLoop_allowed c (pre ++ ch :: post) i tokens nb (hpre c (List.mem_cons_self _ _))
    rw [List.cons_append, h1, ih _ _ _ (fun x hx => hpre x (List.mem_cons_of_mem _ hx))]
    simp [utf8Size, Nat.add_assoc]

/-- On allowed characters only, the tokenizer succeeds. -/
theorem splitLoop_ok (cs : List Char) (i : Nat) (tokens : List String) (nb : List Char)
    (h : ∀ c ∈ cs, allowedChar c = true) : ∃ ts, splitLoop cs i tokens nb = .ok ts := by
  induction cs generalizing i tokens nb with
  | nil => exact ⟨_, rfl⟩
  | cons c cs ih =>
    obtain ⟨t1, n1, h1⟩ := splitLoop_allowed c cs i tokens nb (h c (List.mem_cons_self _ _))
    rw [h1]
    exact ih _ _ _ (fun x hx => h x (List.mem_cons_of_mem _ hx))

/-- A sequence of characters is all allowed, or splits at its first character that
is not. -/
theorem first_not_allowed (cs : List Char) :
    (∀ c ∈ cs, allowedChar c = true) ∨
      ∃ pre ch post, cs = pre ++ ch :: post ∧ (∀ c ∈ pre, allowedChar c = true) ∧
        allowedChar ch = false := by
  induction cs with
  | nil => left; simp
  | cons c cs ih =>
    by_cases hc : allowedChar c = true
    · rcases ih with h | ⟨pre, ch, post, h1, h2, h3⟩
      · left
        intro x hx
        rcases List.mem_cons.1 hx with rfl | hx
        · exact hc
        · exact h x hx
      · right
        refine ⟨c :: pre, ch, post, by rw [h1]; rfl, ?_, h3⟩
        intro x hx
        rcases List.mem_cons.1 hx with rfl | hx
        · exact hc
        · exact h2 x hx
    · right
      exact ⟨[], c, cs, rfl, by simp, by simpa using hc⟩

/-- C5: `splitExpression` fails if and only if the string holds a character that is
neither white space, nor a digit, nor `'.'`, nor one of `+ - * / ( )`; the error then
names the first such character (an error result carries no tokens), which is `'^'`
for `"2+2^5"` and for `"2^3"`. -/
theorem splitExpression_fails_iff (expr : String) :
    ((∃ err, splitExpression expr = .error err) ↔ ∃ ch ∈ expr.data, allowedChar ch = false) ∧
      (∀ err, splitExpression expr = .error err →
        ∃ pre ch post i, expr.data = pre ++ ch :: post ∧ (∀ c ∈ pre, allowedChar c = true) ∧
          allowedChar ch = false ∧ err = .invalidChar ch i) ∧
      splitExpression "2+2^5" = .error (.invalidChar '^' 3) ∧
      splitExpression "2^3" = .error (.invalidChar '^' 1) := by
  refine ⟨?_, ?_, by decide, by decide⟩
  · rcases first_not_allowed expr.data with h | ⟨pre, ch, post, h1, h2, h3⟩
    · obtain ⟨ts, hts⟩ := splitLoop_ok expr.data 0 [] [] h
      constructor
      · rintro ⟨err, herr⟩
        rw [splitExpression, hts] at herr
        cases herr
      · rintro ⟨ch, hmem, hch⟩
        rw [h ch hmem] at hch
        cases hch
    · constructor
      · intro _
        exact ⟨ch, by rw [h1]; simp, h3⟩
      · intro _
        exact ⟨_, by rw [splitExpression, h1]; exact splitLoop_error pre ch post 0 [] [] h2 h3⟩
  · intro err herr
    rcases first_not_allowed expr.data with h | ⟨pre, ch, post, h1, h2, h3⟩
    · obtain ⟨ts, hts⟩ := splitLoop_ok expr.data 0 [] [] h
      rw [splitExpression, hts] at herr
      cases herr
    · refine ⟨pre, ch, post, 0 + utf8Size pre, h1, h2, h3, ?_⟩
      rw [splitExpression, h1, splitLoop_error pre ch post 0 [] [] h2 h3] at herr
      simp only [Except.error.injEq] at herr
      exact herr.symm

theorem utf8Size_ascii (cs : List Char) (h : ∀ c ∈ cs, c.toNat < 0x80) :
    utf8Size cs = cs.length := by
  induction cs with
  | nil => rfl
  | cons c cs ih =>
    have hc := h c (List.mem_cons_self _ _)
    have := ih (fun x hx => h x (List.mem_cons_of_mem _ hx))
    simp only [utf8Size, List.map_cons, List.sum_cons, List.length_cons] at this ⊢
    simp only [utf8Len, hc, if_true]
    omega

/-- C10, the claim as stated fails: after the two-byte white space character U+00A0
(or the two-byte digit U+0663) the offending character `'^'` is the character of
index 1, and the position reported is 2. -/
theorem splitExpression_position_not_char_index :
    (unicode.IsSpace (Char.ofNat 0xA0) = true ∧
      splitExpression (String.mk [Char.ofNat 0xA0, '^']) = .error (.invalidChar '^' 2) ∧
      [Char.ofNat 0xA0, '^'].indexOf '^' = 1) ∧
    (unicode.IsDigit (Char.ofNat 0x663) = true ∧
      splitExpression (String.mk [Char.ofNat 0x663, '^']) = .error (.invalidChar '^' 2) ∧
      [Char.ofNat 0x663, '^'].indexOf '^' = 1) := by
  decide

/-- C10, amended: the position of a lexical error is the byte offset of the offending
character in the UTF-8 encoding of the input, that is the total encoded length of the
characters before it; it is the index of the character when these are all ASCII, as
in `"2^3"`, where it is 1. -/
theorem splitExpression_position_is_byte_offset (expr : String) (ch : Char) (i : Nat)
    (h : splitExpression expr = .error (.invalidChar ch i)) :
    (∃ pre post, expr.data = pre ++ ch :: post ∧ (∀ c ∈ pre, allowedChar c = true) ∧
        allowedChar ch = false ∧ i = utf8Size pre ∧
        ((∀ c ∈ pre, c.toNat < 0x80) → i = pre.length)) ∧
      splitExpression "2^3" = .error (.invalidChar '^' 1) := by
  refine ⟨?_, by decide⟩
  rcases first_not_allowed expr.data with hall | ⟨pre, c, post, h1, h2, h3⟩
  · obtain ⟨ts, hts⟩ := splitLoop_ok expr.data 0 [] [] hall
    rw [splitExpression, hts] at h
    cases h
  · rw [splitExpression, h1, splitLoop_error pre c post 0 [] [] h2 h3] at h
    simp only [Except.error.injEq, CalcError.invalidChar.injEq] at h
    obtain ⟨hc, hi⟩ := h
    subst hc
    refine ⟨pre, post, h1, h2, h3, by omega, fun hascii => ?_⟩
    rw [← utf8Size_ascii pre hascii]
    omega

/-- Witness of C10 (amended) at `"2+2^5"`. -/
theorem splitExpression_position_is_byte_offset_witness :
    splitExpression "2+2^5" = .error (.invalidChar '^' 3) ∧
      ∃ pre post, "2+2^5".data = pre ++ '^' :: post ∧ (∀ c ∈ pre, allowedChar c = true) ∧
        allowedChar '^' = false ∧ 3 = utf8Size pre ∧
        ((∀ c ∈ pre, c.toNat < 0x80) → 3 = pre.length) :=
  ⟨by decide, (splitExpression_position_is_byte_offset "2+2^5" '^' 3 (by decide)).1⟩

/-! ## White space -/

theorem forgetPos_ok {α : Type} (r : Except CalcError α) (v : α) :
    forgetPos r = .ok v ↔ r = .ok v := by
  cases r with
  | ok w => simp [forgetPos]
  | error e => cases e <;> simp [forgetPos]

/-- Removing the white space changes the result of the tokenizer loop at most in the
position of the lexical error. -/
theorem splitLoop_filter (cs : List Char) (i j : Nat) (tokens : List String) (nb : List Char) :
    forgetPos (splitLoop cs i tokens nb) =
      forgetPos (splitLoop (cs.filter fun ch => !unicode.IsSpace ch) j tokens nb) := by
  induction cs generalizing i j tokens nb with
  | nil => rfl
  | cons c cs ih =>
    by_cases hs : unicode.IsSpace c = true
    · rw [splitLoop_space c cs i tokens nb hs]
      simpa [List.filter, hs] using ih (i + utf8Len c) j tokens nb
    · simp only [Bool.not_eq_true] at hs
      have hf : (c :: cs).filter (fun ch => !unicode.IsSpace ch) =
          c :: cs.filter (fun ch => !unicode.IsSpace ch) := by simp [List.filter, hs]
      rw [hf]
      by_cases hd : (unicode.IsDigit c || c == '.') = true
      · rw [splitLoop_digit c _ i tokens nb hs hd, splitLoop_digit c _ j tokens nb hs hd]
        exact ih _ _ _ _
      · simp only [Bool.not_eq_true] at hd
        by_cases hc : containsRune "+-*/()" c = true
        · rw [splitLoop_symbol c _ i tokens nb hs hd hc, splitLoop_symbol c _ j tokens nb hs hd hc]
          exact ih _ _ _ _
        · have hbad : allowedChar c = false := by
            simp only [Bool.or_eq_false_iff] at hd
            simp [allowedChar, hs, hd.1, hd.2, hc]
          rw [splitLoop_invalid c _ i tokens nb hbad, splitLoop_invalid c _ j tokens nb hbad]
          rfl

theorem Agree_refl (r : Except CalcError float64) : Agree r r := by
  cases r with
  | ok v => simp [Agree]
  | error e => simp [Agree]

theorem splitExpression_removeSpaces (s : String) :
    forgetPos (splitExpression s) = forgetPos (splitExpression (removeSpaces s)) :=
  splitLoop_filter s.data 0 0 [] []

/-- C6: removing every white space character from the expression changes neither the
value `Calc` returns nor the kind of error it fails with, and leaves the token
sequence of a successful tokenization unchanged; `Calc " 2 + 2 "` is `Calc "2+2"`. -/
theorem Calc_white_space_insignificant (s : String) :
    Agree (Calc s) (Calc (removeSpaces s)) ∧
      (∀ ts, splitExpression s = .ok ts ↔ splitExpression (removeSpaces s) = .ok ts) ∧
      Calc " 2 + 2 " = Calc "2+2" ∧
      splitExpression " (  3 + 4 ) * 2 " = .ok ["(", "3", "+", "4", ")", "*", "2"] := by
  have key := splitExpression_removeSpaces s
  have hts : ∀ ts, splitExpression s = .ok ts ↔ splitExpression (removeSpaces s) = .ok ts := by
    intro ts
    rw [← forgetPos_ok (splitExpression s), ← forgetPos_ok (splitExpression (removeSpaces s)), key]
  refine ⟨?_, hts, by decide, by decide⟩
  cases h1 : splitExpression s with
  | ok ts =>
    have h2 := (hts ts).1 h1
    have heq : Calc (removeSpaces s) = Calc s := by simp only [Calc, h1, h2]
    rw [heq]
    exact Agree_refl _
  | error e =>
    cases h2 : splitExpression (removeSpaces s) with
    | ok ts => rw [(hts ts).2 h2] at h1; cases h1
    | error f =>
      rw [h1, h2] at key
      simp only [Calc, h1, h2, Agree]
      cases e <;> cases f <;> simp_all [forgetPos, CalcError.kind]

theorem isDecDigit_classes (c : Char) (h : strconv.isDecDigit c = true) :
    unicode.IsSpace c = false ∧ unicode.IsDigit c = true := by
  simp only [strconv.isDecDigit, Bool.and_eq_true, decide_eq_true_eq] at h
  constructor
  · simp only [unicode.IsSpace, Bool.or_eq_false_iff, Bool.and_eq_false_iff, beq_eq_false_iff_ne,
      decide_eq_false_iff_not]
    omega
  · simp only [unicode.IsDigit, unicode.digitRanges, List.any_cons, Bool.or_eq_true,
      Bool.and_eq_true, decide_eq_true_eq]
    left
    omega

/-- A run of white space, digits and dots is accumulated in the builder: the white
space is skipped and does not flush it. -/
theorem splitLoop_number_run (cs : List Char) (i : Nat) (tokens : List String) (nb : List Char)
    (h : ∀ c ∈ cs, unicode.IsSpace c = true ∨
      (unicode.IsSpace c = false ∧ (unicode.IsDigit c || c == '.') = true)) :
    splitLoop cs i tokens nb =
      .ok (flushNumber tokens (nb ++ cs.filter fun ch => !unicode.IsSpace ch)) := by
  induction cs generalizing i nb with
  | nil => simp [splitLoop]
  | cons c cs ih =>
    have hcs := fun x hx => h x (List.mem_cons_of_mem _ hx)
    rcases h c (List.mem_cons_self _ _) with hs | ⟨hs, hd⟩
    · rw [splitLoop_space c cs i tokens nb hs, ih _ _ hcs]
      simp [List.filter, hs]
    · rw [splitLoop_digit c cs i tokens nb hs hd, ih _ _ hcs]
      simp [List.filter, hs]

theorem digits_not_symbol (s : String) (hne : s ≠ "")
    (h : ∀ c ∈ s.data, strconv.isDecDigit c = true) :
    isOperator s = false ∧ s ≠ "(" ∧ s ≠ ")" := by
  refine ⟨?_, ?_, ?_⟩
  · cases ho : isOperator s with
    | false => rfl
    | true =>
      exfalso
      rcases (isOperator_iff s).1 ho with rfl | rfl | rfl | rfl
      · exact absurd (h '+' (by decide)) (by decide)
      · exact absurd (h '-' (by decide)) (by decide)
      · exact absurd (h '*' (by decide)) (by decide)
      · exact absurd (h '/' (by decide)) (by decide)
  · rintro rfl
    exact absurd (h '(' (by decide)) (by decide)
  · rintro rfl
    exact absurd (h ')' (by decide)) (by decide)

/-- C7, the claim as stated fails: in `"2 3"` the space does not end the number run;
the tokenizer returns the single token `"23"` and `Calc` returns 23, not the
invalid-expression error. -/
theorem splitExpression_space_joins_digits :
    splitExpression "2 3" = .ok ["23"] ∧ Calc "2 3" = .ok (float64.ofNat 23) ∧
      splitExpression "2 3" ≠ .ok ["2", "3"] ∧ Calc "2 3" ≠ .error .invalidExpression := by
  decide

/-- C7, amended: for non-empty strings `a` and `b` of decimal digits and a non-empty
string `w` of white space, the white space is skipped without ending the number run:
`splitExpression (a ++ w ++ b)` returns the single token `a ++ b`, and `Calc` returns
the value of that literal when it parses as a number (so `Calc "2 3"` is 23), and
fails with the invalid-expression error when it does not. -/
theorem splitExpression_digits_space_digits (a w b : String)
    (ha : a ≠ "") (_hw : w ≠ "") (_hb : b ≠ "")
    (hda : ∀ c ∈ a.data, strconv.isDecDigit c = true)
    (hdb : ∀ c ∈ b.data, strconv.isDecDigit c = true)
    (hsw : ∀ c ∈ w.data, unicode.IsSpace c = true) :
    splitExpression (a ++ w ++ b) = .ok [a ++ b] ∧
      Calc (a ++ w ++ b) =
        (match strconv.ParseFloat (a ++ b) with
          | some v => .ok v
          | none => .error .invalidExpression) ∧
      Calc "2 3" = .ok (float64.ofNat 23) := by
  have hne : (a ++ b).data ≠ [] := by
    intro h
    apply ha
    have : a.data = [] := by
      simp only [String.data_append, List.append_eq_nil] at h
      exact h.1
    exact String.ext this
  have hsplit : splitExpression (a ++ w ++ b) = .ok [a ++ b] := by
    have hrun : ∀ c ∈ (a ++ w ++ b).data, unicode.IsSpace c = true ∨
        (unicode.IsSpace c = false ∧ (unicode.IsDigit c || c == '.') = true) := by
      intro c hc
      simp only [String.data_append, List.mem_append] at hc
      rcases hc with (hc | hc) | hc
      · right; simp [isDecDigit_classes c (hda c hc)]
      · left; exact hsw c hc
      · right; simp [isDecDigit_classes c (hdb c hc)]
    have hfa : a.data.filter (fun ch => !unicode.IsSpace ch) = a.data :=
      List.filter_eq_self.2 fun c hc => by simp [isDecDigit_classes c (hda c hc)]
    have hfb : b.data.filter (fun ch => !unicode.IsSpace ch) = b.data :=
      List.filter_eq_self.2 fun c hc => by simp [isDecDigit_classes c (hdb c hc)]
    have hfw : w.data.filter (fun ch => !unicode.IsSpace ch) = [] :=
      List.filter_eq_nil_iff.2 fun c hc => by simp [hsw c hc]
    rw [splitExpression, splitLoop_number_run _ 0 [] [] hrun]
    simp only [String.data_append, List.filter_append, hfa, hfb, hfw, List.append_nil,
      List.nil_append]
    have hpos : 0 < (a.data ++ b.data).length := by
      rw [← String.data_append]
      exact List.length_pos.2 hne
    simp only [flushNumber, hpos, if_true, List.nil_append]
    rfl
  refine ⟨hsplit, ?_, by decide⟩
  have hdig : ∀ c ∈ (a ++ b).data, strconv.isDecDigit c = true := by
    intro c hc
    simp only [String.data_append, List.mem_append] at hc
    rcases hc with hc | hc
    · exact hda c hc
    · exact hdb c hc
  have hne' : a ++ b ≠ "" := fun h => hne (by rw [h])
  obtain ⟨ho, hopen, hclose⟩ := digits_not_symbol (a ++ b) hne' hdig
  cases hp : strconv.ParseFloat (a ++ b) with
  | none =>
    have hn : isNumber (a ++ b) = false := by simp [isNumber, hp]
    simp [Calc, hsplit, infixToPostfix, convertLoop, drainStack, hn, ho, hopen, hclose,
      computePostfix, evalLoop]
  | some v =>
    have hn : isNumber (a ++ b) = true := by simp [isNumber, hp]
    simp [Calc, hsplit, infixToPostfix, convertLoop, drainStack, hn, computePostfix, evalLoop, hp]

/-- Witness of C7 (amended) at `a = "12"`, `w = "  "`, `b = "5"`. -/
theorem splitExpression_digits_space_digits_witness :
    splitExpression ("12" ++ "  " ++ "5") = .ok ["12" ++ "5"] ∧
      Calc ("12" ++ "  " ++ "5") = .ok (float64.ofNat 125) :=
  ⟨(splitExpression_digits_space_digits "12" "  " "5" (by decide) (by decide) (by decide)
      (by decide) (by decide) (by decide)).1,
    (splitExpression_digits_space_digits "12" "  " "5" (by decide) (by decide) (by decide)
      (by decide) (by decide) (by decide)).2.1⟩

/-! ## A literal with two decimal points -/

/-- C8, the code at the failing input `"1.2.3"`: the tokenizer emits the run as one
token, `strconv.ParseFloat` rejects it, the conversion drops it as neither a number
nor an operator nor a parenthesis, and `Calc` fails with the invalid-expression error
on the empty postfix sequence, not with the numeric-format error; when an operator
follows, as in `"1.2.3+1"`, the error is the insufficient-operands error. -/
theorem Calc_two_decimal_points :
    splitExpression "1.2.3" = .ok ["1.2.3"] ∧ strconv.ParseFloat "1.2.3" = none ∧
      infixToPostfix ["1.2.3"] = .ok [] ∧ Calc "1.2.3" = .error .invalidExpression ∧
      Calc "1.2.3" ≠ .error (.invalidNumber "1.2.3") ∧
      Calc "1.2.3+1" = .error .insufficientOperands := by
  decide

/-! ## Expressions of the grammar: tokenization -/

theorem symbol_classes (c : Char) (h : containsRune "+-*/()" c = true) :
    unicode.IsSpace c = false ∧ (unicode.IsDigit c || c == '.') = false := by
  have hmem : c = '+' ∨ c = '-' ∨ c = '*' ∨ c = '/' ∨ c = '(' ∨ c = ')' := by
    simpa [containsRune] using h
  rcases hmem with rfl | rfl | rfl | rfl | rfl | rfl <;> decide

theorem literal_char_classes (c : Char) (h : (strconv.isDecDigit c || c == '.') = true) :
    unicode.IsSpace c = false ∧ (unicode.IsDigit c || c == '.') = true := by
  rcases Bool.or_eq_true_iff.1 h with hd | hdot
  · obtain ⟨h1, h2⟩ := isDecDigit_classes c hd
    exact ⟨h1, by simp [h2]⟩
  · have : c = '.' := by simpa using hdot
    subst this
    decide

/-- The characters of a literal go to the builder. -/
theorem splitLoop_literal_chars (ds rest : List Char) (i : Nat) (toks : List String)
    (nb : List Char) (h : ∀ c ∈ ds, (strconv.isDecDigit c || c == '.') = true) :
    splitLoop (ds ++ rest) i toks nb = splitLoop rest (i + utf8Size ds) toks (nb ++ ds) := by
  induction ds generalizing i nb with
  | nil => simp [utf8Size]
  | cons c ds ih =>
    obtain ⟨hs, hd⟩ := literal_char_classes c (h c (List.mem_cons_self _ _))
    rw [List.cons_append, splitLoop_digit c _ i toks nb hs hd,
      ih _ _ (fun x hx => h x (List.mem_cons_of_mem _ hx))]
    simp [utf8Size, Nat.add_assoc]

/-- Before the end of the input or one of `+ - * / ( )`, a non-empty builder can be
flushed at once. -/
theorem splitLoop_flush_at_boundary (rest : List Char) (i : Nat) (toks : List String)
    (nb : List Char) (hb : Boundary rest) (hnb : nb ≠ []) :
    splitLoop rest i toks nb = splitLoop rest i (toks ++ [String.mk nb]) [] := by
  have hpos : 0 < nb.length := List.length_pos.2 hnb
  cases rest with
  | nil => simp [splitLoop, flushNumber, hpos]
  | cons c r =>
    obtain ⟨hs, hd⟩ := symbol_classes c hb
    rw [splitLoop_symbol c r i toks nb hs hd hb, splitLoop_symbol c r i _ [] hs hd hb]
    simp [flushNumber, hpos]

theorem splitLoop_literal (lit : String) (rest : List Char) (i : Nat) (toks : List String)
    (hlit : decimalLiteral lit = true) (hb : Boundary rest) :
    splitLoop (lit.data ++ rest) i toks [] =
      splitLoop rest (i + utf8Size lit.data) (toks ++ [lit]) [] := by
  simp only [decimalLiteral, Bool.and_eq_true, List.all_eq_true] at hlit
  obtain ⟨hchars, hnum⟩ := hlit
  have hne : lit.data ≠ [] := by
    intro h
    have : lit = "" := String.ext h
    subst this
    revert hnum
    decide
  rw [splitLoop_literal_chars lit.data rest i toks [] hchars, List.nil_append,
    splitLoop_flush_at_boundary rest _ toks lit.data hb hne]

theorem splitLoop_token_char (c : Char) (rest : List Char) (i : Nat) (toks : List String)
    (h : containsRune "+-*/()" c = true) :
    splitLoop (c :: rest) i toks [] = splitLoop rest (i + utf8Len c) (toks ++ [String.mk [c]]) [] := by
  obtain ⟨hs, hd⟩ := symbol_classes c h
  rw [splitLoop_symbol c rest i toks [] hs hd h]
  simp [flushNumber]

theorem BinOp.token_data (op : BinOp) :
    ∃ c, op.token = String.mk [c] ∧ containsRune "+-*/()" c = true := by
  cases op
  · exact ⟨'+', rfl, by decide⟩
  · exact ⟨'-', rfl, by decide⟩
  · exact ⟨'*', rfl, by decide⟩
  · exact ⟨'/', rfl, by decide⟩

/-- The tokenizer step for a binary operation, from the steps for its operands. -/
theorem splitLoop_binary (op : BinOp) (l r : Expr)
    (hl : ∀ rest i toks, Boundary rest →
      ∃ j, splitLoop (l.text.data ++ rest) i toks [] = splitLoop rest j (toks ++ l.tokens) [])
    (hr : ∀ rest i toks, Boundary rest →
      ∃ j, splitLoop (r.text.data ++ rest) i toks [] = splitLoop rest j (toks ++ r.tokens) [])
    (rest : List Char) (i : Nat) (toks : List String) (hb : Boundary rest) :
    ∃ j, splitLoop ((Expr.binary op l r).text.data ++ rest) i toks [] =
      splitLoop rest j (toks ++ (Expr.binary op l r).tokens) [] := by
  obtain ⟨c, hc, hsym⟩ := op.token_data
  obtain ⟨j1, h1⟩ := hl (c :: (r.text.data ++ rest)) i toks hsym
  obtain ⟨j2, h2⟩ := hr rest (j1 + utf8Len c) (toks ++ l.tokens ++ [String.mk [c]]) hb
  refine ⟨j2, ?_⟩
  have e1 : (Expr.binary op l r).text.data ++ rest =
      l.text.data ++ c :: (r.text.data ++ rest) := by
    simp [Expr.text, String.data_append, hc]
  have e2 : toks ++ (Expr.binary op l r).tokens =
      toks ++ l.tokens ++ [String.mk [c]] ++ r.tokens := by
    simp [Expr.tokens, hc]
  rw [e1, e2, h1, splitLoop_token_char c _ j1 _ hsym, h2]

/-- The tokenizer on the text of a parse tree, followed by the end of the input or by
one of `+ - * / ( )`, emits the tokens of the tree. -/
theorem splitLoop_text {sym : Sym} {e : Expr} (h : Derives sym e) :
    ∀ rest i toks, Boundary rest →
      ∃ j, splitLoop (e.text.data ++ rest) i toks [] = splitLoop rest j (toks ++ e.tokens) [] := by
  induction h with
  | add _ _ ihl ihr => exact splitLoop_binary .add _ _ ihl ihr
  | sub _ _ ihl ihr => exact splitLoop_binary .sub _ _ ihl ihr
  | mul _ _ ihl ihr => exact splitLoop_binary .mul _ _ ihl ihr
  | div _ _ ihl ihr => exact splitLoop_binary .div _ _ ihl ihr
  | term _ ih => exact ih
  | factor _ ih => exact ih
  | num hlit =>
    intro rest i toks hb
    exact ⟨_, splitLoop_literal _ rest i toks hlit hb⟩
  | @paren e _ ih =>
    intro rest i toks hb
    have hclose : Boundary (')' :: rest) := by simp [Boundary]; decide
    obtain ⟨j, hj⟩ := ih (')' :: rest) (i + utf8Len '(') (toks ++ [String.mk ['(']]) hclose
    refine ⟨j + utf8Len ')', ?_⟩
    have e1 : (Expr.paren e).text.data ++ rest = '(' :: (e.text.data ++ ')' :: rest) := by
      simp [Expr.text, String.data_append]
    rw [e1, splitLoop_token_char '(' _ i toks (by decide), hj,
      splitLoop_token_char ')' _ j _ (by decide)]
    simp [Expr.tokens, List.append_assoc]

theorem splitExpression_text {e : Expr} (h : Derives .E e) :
    splitExpression e.text = .ok e.tokens := by
  obtain ⟨j, hj⟩ := splitLoop_text h [] 0 [] (by simp [Boundary])
  simp only [List.append_nil, List.nil_append] at hj
  rw [splitExpression, hj]
  simp [splitLoop, flushNumber]

/-! ## Expressions of the grammar: conversion to postfix -/

theorem convertLoop_number (t : String) (rest out st : List String) (h : isNumber t = true) :
    convertLoop (t :: rest) out st = convertLoop rest (out ++ [t]) st := by
  simp [convertLoop, h]

theorem convertLoop_operator (t : String) (rest out st : List String)
    (h : isOperator t = true) :
    convertLoop (t :: rest) out st =
      convertLoop rest (popOperators t out st).1 (t :: (popOperators t out st).2) := by
  simp [convertLoop, h, isNumber_of_isOperator h]

theorem convertLoop_open (rest out st : List String) :
    convertLoop ("(" :: rest) out st = convertLoop rest out ("(" :: st) := by
  simp [convertLoop, isNumber_open, isOperator_open]

theorem convertLoop_close (rest out st : List String) (r : List String × List String)
    (h : popUntilOpen out st = some r) :
    convertLoop (")" :: rest) out st = convertLoop rest r.1 r.2 := by
  simp [convertLoop, isNumber_close, isOperator_close, h]

theorem isOperator_ne_paren {x : String} (h : isOperator x = true) : x ≠ "(" ∧ x ≠ ")" := by
  constructor
  · rintro rfl
    simp [isOperator_open] at h
  · rintro rfl
    simp [isOperator_close] at h

/-- An operator pops the pending operators of precedence at least its own, down to
a stack whose top does not qualify. -/
theorem popOperators_pending (sym : Sym) (tok : String) (pend st out : List String)
    (hprec : precedence tok = sym.minPrec)
    (hp : ∀ x ∈ pend, isOperator x = true ∧ sym.minPrec ≤ precedence x)
    (hbase : BaseOk sym st) :
    popOperators tok out (pend ++ st) = (out ++ pend, st) := by
  induction pend generalizing out with
  | nil =>
    cases st with
    | nil => simp [popOperators]
    | cons top st =>
      simp only [BaseOk, not_and] at hbase
      simp only [List.nil_append, popOperators, List.append_nil]
      by_cases ho : isOperator top = true
      · have := hbase ho
        simp [ho, hprec, this]
      · simp [ho]
  | cons x pend ih =>
    obtain ⟨h1, h2⟩ := hp x (List.mem_cons_self _ _)
    have := ih (out ++ [x]) (fun y hy => hp y (List.mem_cons_of_mem _ hy))
    simp [popOperators, h1, hprec, h2, this]

theorem popUntilOpen_pending (pend st out : List String)
    (hp : ∀ x ∈ pend, isOperator x = true) :
    popUntilOpen out (pend ++ "(" :: st) = some (out ++ pend, st) := by
  induction pend generalizing out with
  | nil => simp [popUntilOpen]
  | cons x pend ih =>
    have hx := (isOperator_ne_paren (hp x (List.mem_cons_self _ _))).1
    have := ih (out ++ [x]) (fun y hy => hp y (List.mem_cons_of_mem _ hy))
    simp [popUntilOpen, hx, this]

theorem drainStack_pending (pend out : List String) (hp : ∀ x ∈ pend, isOperator x = true) :
    drainStack out pend = .ok (out ++ pend) := by
  induction pend generalizing out with
  | nil => simp [drainStack]
  | cons x pend ih =>
    obtain ⟨h1, h2⟩ := isOperator_ne_paren (hp x (List.mem_cons_self _ _))
    have := ih (out ++ [x]) (fun y hy => hp y (List.mem_cons_of_mem _ hy))
    simp [drainStack, h1, h2, this]

theorem BinOp.isOperator_token (op : BinOp) : isOperator op.token = true := by
  cases op <;> decide

/-- The conversion step for a binary operation whose operator has the least
precedence of the nonterminal `X`, with a right operand of a nonterminal `Y` of
higher precedence, from the steps for its operands. -/
theorem convertLoop_binary (X Y : Sym) (op : BinOp) (l r : Expr)
    (hprec : precedence op.token = X.minPrec) (hXY : X.minPrec < Y.minPrec)
    (hl : ∀ rest out st, BaseOk X st →
      ∃ o pend, convertLoop (l.tokens ++ rest) out st = convertLoop rest o (pend ++ st) ∧
        o ++ pend = out ++ l.postorder ∧
        ∀ x ∈ pend, isOperator x = true ∧ X.minPrec ≤ precedence x)
    (hr : ∀ rest out st, BaseOk Y st →
      ∃ o pend, convertLoop (r.tokens ++ rest) out st = convertLoop rest o (pend ++ st) ∧
        o ++ pend = out ++ r.postorder ∧
        ∀ x ∈ pend, isOperator x = true ∧ Y.minPrec ≤ precedence x)
    (rest out st : List String) (hbase : BaseOk X st) :
    ∃ o pend, convertLoop ((Expr.binary op l r).tokens ++ rest) out st =
        convertLoop rest o (pend ++ st) ∧
      o ++ pend = out ++ (Expr.binary op l r).postorder ∧
      ∀ x ∈ pend, isOperator x = true ∧ X.minPrec ≤ precedence x := by
  have hop := op.isOperator_token
  obtain ⟨o1, pend1, h1, h2, h3⟩ := hl (op.token :: (r.tokens ++ rest)) out st hbase
  have hbase2 : BaseOk Y (op.token :: st) := by
    simp only [BaseOk, not_and, hprec]
    intro _
    omega
  obtain ⟨o2, pend2, h4, h5, h6⟩ := hr rest (o1 ++ pend1) (op.token :: st) hbase2
  refine ⟨o2, pend2 ++ [op.token], ?_, ?_, ?_⟩
  · have e1 : (Expr.binary op l r).tokens ++ rest = l.tokens ++ op.token :: (r.tokens ++ rest) := by
      simp [Expr.tokens]
    rw [e1, h1, convertLoop_operator _ _ _ _ hop,
      popOperators_pending X op.token pend1 st o1 hprec h3 hbase, h4]
    simp
  · simp only [Expr.postorder]
    rw [← List.append_assoc, h5, h2]
    simp
  · intro x hx
    rcases List.mem_append.1 hx with hx | hx
    · obtain ⟨a, b⟩ := h6 x hx
      exact ⟨a, by omega⟩
    · simp only [List.mem_singleton] at hx
      subst hx
      exact ⟨hop, by omega⟩

/-- The conversion on the tokens of a parse tree appends the post-order traversal of
the tree to the output, up to the operators still pending on top of the stack. -/
theorem convertLoop_tokens {sym : Sym} {e : Expr} (h : Derives sym e) :
    ∀ rest out st, BaseOk sym st →
      ∃ o pend, convertLoop (e.tokens ++ rest) out st = convertLoop rest o (pend ++ st) ∧
        o ++ pend = out ++ e.postorder ∧
        ∀ x ∈ pend, isOperator x = true ∧ sym.minPrec ≤ precedence x := by
  induction h with
  | add _ _ ihl ihr => exact convertLoop_binary .E .T .add _ _ (by decide) (by decide) ihl ihr
  | sub _ _ ihl ihr => exact convertLoop_binary .E .T .sub _ _ (by decide) (by decide) ihl ihr
  | mul _ _ ihl ihr => exact convertLoop_binary .T .F .mul _ _ (by decide) (by decide) ihl ihr
  | div _ _ ihl ihr => exact convertLoop_binary .T .F .div _ _ (by decide) (by decide) ihl ihr
  | term _ ih =>
    intro rest out st hbase
    have hb : BaseOk .T st := by
      cases st with
      | nil => trivial
      | cons top st =>
        simp only [BaseOk, not_and, Sym.minPrec] at hbase ⊢
        intro ho hle
        exact hbase ho (by omega)
    obtain ⟨o, pend, h1, h2, h3⟩ := ih rest out st hb
    refine ⟨o, pend, h1, h2, fun x hx => ⟨(h3 x hx).1, ?_⟩⟩
    have := (h3 x hx).2
    simp only [Sym.minPrec] at this ⊢
    omega
  | factor _ ih =>
    intro rest out st hbase
    have hb : BaseOk .F st := by
      cases st with
      | nil => trivial
      | cons top st =>
        simp only [BaseOk, not_and, Sym.minPrec] at hbase ⊢
        intro ho hle
        exact hbase ho (by omega)
    obtain ⟨o, pend, h1, h2, h3⟩ := ih rest out st hb
    refine ⟨o, pend, h1, h2, fun x hx => ⟨(h3 x hx).1, ?_⟩⟩
    have := (h3 x hx).2
    simp only [Sym.minPrec] at this ⊢
    omega
  | @num lit hlit =>
    intro rest out st _
    have hn : isNumber lit = true := by
      simp only [decimalLiteral, Bool.and_eq_true] at hlit
      exact hlit.2
    exact ⟨out ++ [lit], [], by simp [Expr.tokens, convertLoop_number _ _ _ _ hn],
      by simp [Expr.postorder], by simp⟩
  | @paren e _ ih =>
    intro rest out st _
    have hb : BaseOk .E ("(" :: st) := by
      simp [BaseOk, isOperator_open]
    obtain ⟨o, pend, h1, h2, h3⟩ := ih (")" :: rest) out ("(" :: st) hb
    refine ⟨out ++ e.postorder, [], ?_, by simp [Expr.postorder], by simp⟩
    have e1 : (Expr.paren e).tokens ++ rest = "(" :: (e.tokens ++ ")" :: rest) := by
      simp [Expr.tokens]
    rw [e1, convertLoop_open, h1,
      convertLoop_close _ _ _ _ (popUntilOpen_pending pend st o (fun x hx => (h3 x hx).1))]
    simp [h2]

theorem infixToPostfix_tokens {e : Expr} (h : Derives .E e) :
    infixToPostfix e.tokens = .ok e.postorder := by
  obtain ⟨o, pend, h1, h2, h3⟩ := convertLoop_tokens h [] [] [] (by simp [BaseOk])
  simp only [List.append_nil, List.nil_append] at h1 h2
  simp only [infixToPostfix, h1, convertLoop]
  rw [drainStack_pending pend o (fun x hx => (h3 x hx).1), h2]

/-! ## Expressions of the grammar: evaluation -/

theorem applyOperator_token (op : BinOp) (a b : float64) :
    applyOperator op.token a b =
      match op.apply a b with
      | some v => .ok v
      | none => .error .divisionByZero := by
  cases op
  · simp [applyOperator, BinOp.token, BinOp.apply]
  · have h1 : ("-" : String) ≠ "+" := by decide
    simp [applyOperator, BinOp.token, BinOp.apply, h1]
  · have h1 : ("*" : String) ≠ "+" := by decide
    have h2 : ("*" : String) ≠ "-" := by decide
    simp [applyOperator, BinOp.token, BinOp.apply, h1, h2]
  · have h1 : ("/" : String) ≠ "+" := by decide
    have h2 : ("/" : String) ≠ "-" := by decide
    have h3 : ("/" : String) ≠ "*" := by decide
    simp only [applyOperator, BinOp.token, BinOp.apply, h1, h2, h3, if_false, if_true]
    cases b.isZero <;> simp

theorem evalLoop_number (t : String) (rest : List String) (st : List float64) (v : float64)
    (h : strconv.ParseFloat t = some v) : evalLoop (t :: rest) st = evalLoop rest (v :: st) := by
  simp [evalLoop, isNumber, h]

theorem evalLoop_binary (op : BinOp) (l r : Expr)
    (hl : ∀ rest st, evalLoop (l.postorder ++ rest) st =
      match l.eval with
      | some v => evalLoop rest (v :: st)
      | none => .error .divisionByZero)
    (hr : ∀ rest st, evalLoop (r.postorder ++ rest) st =
      match r.eval with
      | some v => evalLoop rest (v :: st)
      | none => .error .divisionByZero)
    (rest : List String) (st : List float64) :
    evalLoop ((Expr.binary op l r).postorder ++ rest) st =
      match (Expr.binary op l r).eval with
      | some v => evalLoop rest (v :: st)
      | none => .error .divisionByZero := by
  have e1 : (Expr.binary op l r).postorder ++ rest =
      l.postorder ++ (r.postorder ++ op.token :: rest) := by
    simp [Expr.postorder]
  rw [e1, hl]
  cases hla : l.eval with
  | none => simp [Expr.eval, hla]
  | some a =>
    simp only []
    rw [hr]
    cases hrb : r.eval with
    | none => simp [Expr.eval, hla, hrb]
    | some b =>
      have hop := op.isOperator_token
      have hn := isNumber_of_isOperator hop
      simp only [Expr.eval, hla, hrb, evalLoop, hn, hop, if_true, applyOperator_token]
      cases op.apply a b <;> simp

/-- The evaluation loop on the post-order traversal of a parse tree pushes the value
of the tree, or fails with the divide-by-zero error when the tree has no value. -/
theorem evalLoop_postorder {sym : Sym} {e : Expr} (h : Derives sym e) :
    ∀ rest st, evalLoop (e.postorder ++ rest) st =
      match e.eval with
      | some v => evalLoop rest (v :: st)
      | none => .error .divisionByZero := by
  induction h with
  | add _ _ ihl ihr => exact evalLoop_binary .add _ _ ihl ihr
  | sub _ _ ihl ihr => exact evalLoop_binary .sub _ _ ihl ihr
  | mul _ _ ihl ihr => exact evalLoop_binary .mul _ _ ihl ihr
  | div _ _ ihl ihr => exact evalLoop_binary .div _ _ ihl ihr
  | term _ ih => exact ih
  | factor _ ih => exact ih
  | @num lit hlit =>
    intro rest st
    have hn : isNumber lit = true := by
      simp only [decimalLiteral, Bool.and_eq_true] at hlit
      exact hlit.2
    cases hp : strconv.ParseFloat lit with
    | none => simp [isNumber, hp] at hn
    | some v => simp [Expr.postorder, Expr.eval, hp, evalLoop_number _ _ _ _ hp]
  | paren _ ih =>
    intro rest st
    simpa [Expr.postorder, Expr.eval] using ih rest st

theorem computePostfix_postorder {e : Expr} (h : Derives .E e) :
    computePostfix e.postorder =
      match e.eval with
      | some v => .ok v
      | none => .error .divisionByZero := by
  have := evalLoop_postorder h [] []
  simp only [List.append_nil] at this
  unfold computePostfix
  rw [this]
  cases e.eval <;> simp [evalLoop]

theorem eval_none_binary (op : BinOp) (l r : Expr)
    (hl : l.eval = none ↔ l.dividesByZero = true)
    (hr : r.eval = none ↔ r.dividesByZero = true) :
    (Expr.binary op l r).eval = none ↔ (Expr.binary op l r).dividesByZero = true := by
  cases hla : l.eval with
  | none =>
    have := hl.1 hla
    simp [Expr.eval, Expr.dividesByZero, hla, this]
  | some a =>
    have hl' : l.dividesByZero = false := by
      cases hd : l.dividesByZero with
      | false => rfl
      | true => rw [hl.2 hd] at hla; cases hla
    cases hrb : r.eval with
    | none =>
      have := hr.1 hrb
      simp [Expr.eval, Expr.dividesByZero, hla, hrb, this]
    | some b =>
      have hr' : r.dividesByZero = false := by
        cases hd : r.dividesByZero with
        | false => rfl
        | true => rw [hr.2 hd] at hrb; cases hrb
      cases op <;> simp [Expr.eval, Expr.dividesByZero, hla, hrb, hl', hr', BinOp.apply]

/-- A parse tree has no value exactly when one of its divisions has a right operand
that evaluates to zero. -/
theorem eval_none_iff {sym : Sym} {e : Expr} (h : Derives sym e) :
    e.eval = none ↔ e.dividesByZero = true := by
  induction h with
  | add _ _ ihl ihr => exact eval_none_binary .add _ _ ihl ihr
  | sub _ _ ihl ihr => exact eval_none_binary .sub _ _ ihl ihr
  | mul _ _ ihl ihr => exact eval_none_binary .mul _ _ ihl ihr
  | div _ _ ihl ihr => exact eval_none_binary .div _ _ ihl ihr
  | term _ ih => exact ih
  | factor _ ih => exact ih
  | @num lit hlit =>
    have hn : isNumber lit = true := by
      simp only [decimalLiteral, Bool.and_eq_true] at hlit
      exact hlit.2
    cases hp : strconv.ParseFloat lit with
    | none => simp [isNumber, hp] at hn
    | some v => simp [Expr.eval, Expr.dividesByZero, hp]
  | paren _ ih => simpa [Expr.eval, Expr.dividesByZero] using ih

/-- C1: for every parse tree `e` of the grammar `E -> E (+|-) T | T`,
`T -> T (*|/) F | F`, `F -> number | ( E )` whose literals are sign-less decimal
literals that parse as numbers, `Calc` on the text of `e` returns the value of the
recursive evaluation of the tree, and the divide-by-zero error instead exactly when
some division of the tree has a right operand that evaluates to zero; `Calc "2+2"` is
4, `Calc "(3+4)*2"` is 14, `Calc "2+3*4"` is 14 and `Calc "(2+3)*4"` is 20. -/
theorem Calc_parse_tree (e : Expr) (h : Derives .E e) :
    Calc e.text =
        (match e.eval with
          | some v => .ok v
          | none => .error .divisionByZero) ∧
      (e.eval = none ↔ e.dividesByZero = true) ∧
      (Calc e.text = .error .divisionByZero ↔ e.dividesByZero = true) ∧
      Calc "2+2" = .ok (float64.ofNat 4) ∧ Calc "(3+4)*2" = .ok (float64.ofNat 14) ∧
      Calc "2+3*4" = .ok (float64.ofNat 14) ∧ Calc "(2+3)*4" = .ok (float64.ofNat 20) := by
  have hcalc : Calc e.text =
      (match e.eval with
        | some v => .ok v
        | none => .error .divisionByZero) := by
    simp only [Calc, splitExpression_text h, infixToPostfix_tokens h]
    exact computePostfix_postorder h
  refine ⟨hcalc, eval_none_iff h, ?_, by decide!, by decide!, by decide!, by decide!⟩
  rw [hcalc, ← eval_none_iff h]
  cases e.eval <;> simp

/-- Witness of C1 at the parse tree of `(2+3)*4`. -/
theorem Calc_parse_tree_witness :
    Derives .E (.binary .mul (.paren (.binary .add (.num "2") (.num "3"))) (.num "4")) ∧
      (Expr.binary .mul (.paren (.binary .add (.num "2") (.num "3"))) (.num "4")).text =
        "(2+3)*4" ∧
      Calc (Expr.binary .mul (.paren (.binary .add (.num "2") (.num "3"))) (.num "4")).text =
        .ok (float64.ofNat 20) :=
  ⟨.term (.mul (.factor (.paren (.add (.term (.factor (.num (by decide))))
      (.factor (.num (by decide)))))) (.num (by decide))),
    by decide,
    (Calc_parse_tree _ (.term (.mul (.factor (.paren (.add (.term (.factor (.num (by decide))))
      (.factor (.num (by decide)))))) (.num (by decide))))).1.trans (by decide!)⟩

/-! ## The errors of the three stages and their classification -/

theorem splitExpression_error_cases (s : String) (err : CalcError)
    (h : splitExpression s = .error err) : ∃ ch i, err = .invalidChar ch i := by
  rcases first_not_allowed s.data with hall | ⟨pre, c, post, h1, h2, h3⟩
  · obtain ⟨ts, hts⟩ := splitLoop_ok s.data 0 [] [] hall
    rw [splitExpression, hts] at h
    cases h
  · rw [splitExpression, h1, splitLoop_error pre c post 0 [] [] h2 h3] at h
    simp only [Except.error.injEq] at h
    exact ⟨c, _, h.symm⟩

theorem infixToPostfix_error_cases (ts : List String) (err : CalcError)
    (h : infixToPostfix ts = .error err) : err = .unbalancedParens := by
  rcases infixToPostfix_parenScan ts with ⟨_, o, h2⟩ | ⟨_, h2⟩
  · rw [h2] at h; cases h
  · rw [h2] at h
    simp only [Except.error.injEq] at h
    exact h.symm

theorem evalStep_error_cases (t : String) (st : List float64) (err : CalcError)
    (h : evalStep t st = .error err) :
    err = .insufficientOperands ∨ err = .divisionByZero := by
  unfold evalStep at h
  by_cases hn : isNumber t = true
  · cases hp : strconv.ParseFloat t with
    | none => simp [isNumber, hp] at hn
    | some v => simp [evalLoop, hn, hp] at h
  · by_cases ho : isOperator t = true
    · match st with
      | [] =>
        simp [evalLoop, hn, ho] at h
        exact Or.inl h.symm
      | [b] =>
        simp [evalLoop, hn, ho] at h
        exact Or.inl h.symm
      | b :: a :: below =>
        cases ha : applyOperator t a b with
        | error e =>
          simp [evalLoop, hn, ho, ha] at h
          subst h
          right
          unfold applyOperator at ha
          split at ha
          · cases ha
          · split at ha
            · cases ha
            · split at ha
              · cases ha
              · split at ha
                · split at ha
                  · simp only [Except.error.injEq] at ha
                    exact ha.symm
                  · cases ha
                · cases ha
        | ok r => simp [evalLoop, hn, ho, ha] at h
    · simp [evalLoop, hn, ho] at h

theorem evalLoop_error_cases (p : List String) (st : List float64) (err : CalcError)
    (h : evalLoop p st = .error err) :
    err = .insufficientOperands ∨ err = .divisionByZero := by
  induction p generalizing st with
  | nil => simp [evalLoop] at h
  | cons t p ih =>
    rw [evalLoop_cons] at h
    cases hs : evalStep t st with
    | error e =>
      rw [hs] at h
      simp only [Except.error.injEq] at h
      subst h
      exact evalStep_error_cases t st e hs
    | ok s1 =>
      rw [hs] at h
      exact ih s1 h

theorem computePostfix_error_cases (p : List String) (err : CalcError)
    (h : computePostfix p = .error err) :
    err = .insufficientOperands ∨ err = .divisionByZero ∨ err = .invalidExpression := by
  unfold computePostfix at h
  cases hl : evalLoop p [] with
  | error e =>
    rw [hl] at h
    simp only [Except.error.injEq] at h
    subst h
    rcases evalLoop_error_cases p [] e hl with h1 | h1
    · exact Or.inl h1
    · exact Or.inr (Or.inl h1)
  | ok st =>
    rw [hl] at h
    match st with
    | [] => simp at h; exact Or.inr (Or.inr h.symm)
    | [v] => simp at h
    | _ :: _ :: _ => simp at h; exact Or.inr (Or.inr h.symm)

/-- The errors `Calc` can return. -/
theorem Calc_error_cases (s : String) (err : CalcError) (h : Calc s = .error err) :
    (∃ ch i, err = .invalidChar ch i) ∨ err = .unbalancedParens ∨
      err = .insufficientOperands ∨ err = .divisionByZero ∨ err = .invalidExpression := by
  unfold Calc at h
  cases h1 : splitExpression s with
  | error e =>
    rw [h1] at h
    simp only [Except.error.injEq] at h
    subst h
    exact Or.inl (splitExpression_error_cases s e h1)
  | ok ts =>
    rw [h1] at h
    simp only [] at h
    cases h2 : infixToPostfix ts with
    | error e =>
      rw [h2] at h
      simp only [Except.error.injEq] at h
      subst h
      exact Or.inr (Or.inl (infixToPostfix_error_cases ts e h2))
    | ok rpn =>
      rw [h2] at h
      simp only [] at h
      exact Or.inr (Or.inr (computePostfix_error_cases rpn err h))

theorem startsWith_append (p rest : List Char) : strings.startsWith (p ++ rest) p = true := by
  induction p with
  | nil => cases rest <;> rfl
  | cons c p ih => simp [strings.startsWith, ih]

theorem containsAt_of_startsWith (s sub : List Char) (h : strings.startsWith s sub = true) :
    strings.containsAt s sub = true := by
  cases s with
  | nil => simpa [strings.containsAt] using h
  | cons c s => simp [strings.containsAt, h]

theorem isExpressionError_invalidChar (ch : Char) (i : Nat) :
    isExpressionError (.invalidChar ch i) = true := by
  have hc : strings.Contains (CalcError.invalidChar ch i).Error "недопустимый символ" = true := by
    unfold strings.Contains
    apply containsAt_of_startsWith
    have : (CalcError.invalidChar ch i).Error.data =
        "недопустимый символ".data ++
          (" '".data ++ [ch] ++ "' на позиции ".data ++ (toString i).data) := by
      simp [CalcError.Error, String.data_append]
    rw [this]
    exact startsWith_append _ _
  unfold isExpressionError
  split
  · rfl
  · simp [hc]

/-- C11: whenever `Calc s` fails, `isExpressionError` is true of the error returned,
so the handler answers 422 with "Expression is not valid" and never 500. -/
theorem Calc_error_is_expression_error (s : String) (err : CalcError)
    (h : Calc s = .error err) :
    (isExpressionError err = true ∧
        calculateHandler s = (422, some "Expression is not valid")) ∧
      calculateHandler "2+(3*2" = (422, some "Expression is not valid") ∧
      calculateHandler "2/0" = (422, some "Expression is not valid") := by
  refine ⟨?_, by decide, by decide⟩
  have hexp : isExpressionError err = true := by
    rcases Calc_error_cases s err h with ⟨ch, i, rfl⟩ | rfl | rfl | rfl | rfl
    · exact isExpressionError_invalidChar ch i
    · decide
    · decide
    · decide
    · decide
  exact ⟨hexp, by simp [calculateHandler, h, hexp]⟩

/-- Witness of C11 at `"2+(3*2"`, whose parentheses are unbalanced. -/
theorem Calc_error_is_expression_error_witness :
    Calc "2+(3*2" = .error .unbalancedParens ∧
      isExpressionError .unbalancedParens = true ∧
      calculateHandler "2+(3*2" = (422, some "Expression is not valid") :=
  ⟨by decide, (Calc_error_is_expression_error "2+(3*2" .unbalancedParens (by decide)).1⟩

/-- C19: `computePostfix` never returns the numeric-format error: a token reaches
`strconv.ParseFloat` only when `isNumber`, the same parser, has accepted it, and a
token that is neither a number nor an operator leaves the stack unchanged; so `Calc`
never returns the numeric-format error either. -/
theorem computePostfix_never_invalid_number :
    (∀ (p : List String) (token : String), computePostfix p ≠ .error (.invalidNumber token)) ∧
      (∀ (token : String), isNumber token = true → ∃ v, strconv.ParseFloat token = some v) ∧
      (∀ (token : String) (rest : List String) (stack : List float64),
        isNumber token = false → isOperator token = false →
          evalLoop (token :: rest) stack = evalLoop rest stack) ∧
      (∀ (s token : String), Calc s ≠ .error (.invalidNumber token)) := by
  refine ⟨?_, ?_, ?_, ?_⟩
  · intro p token h
    rcases computePostfix_error_cases p _ h with h1 | h1 | h1 <;> cases h1
  · intro token h
    cases hp : strconv.ParseFloat token with
    | none => simp [isNumber, hp] at h
    | some v => exact ⟨v, rfl⟩
  · intro token rest stack hn ho
    simp [evalLoop, hn, ho]
  · intro s token h
    rcases Calc_error_cases s _ h with ⟨ch, i, h1⟩ | h1 | h1 | h1 | h1 <;> cases h1

/-! ## The facade -/

/-- C14: `Calc` returns the error of the first stage that fails and runs no later
stage: the lexical error of `splitExpression`, else the error of `infixToPostfix`,
else the result of `computePostfix` on the postfix sequence; `"(1/0^"` fails with the
lexical error and `"1/0)"` with the unbalanced-parentheses error. -/
theorem Calc_first_failure (s : String) :
    (∀ err, splitExpression s = .error err → Calc s = .error err) ∧
      (∀ tokens err, splitExpression s = .ok tokens → infixToPostfix tokens = .error err →
        Calc s = .error err) ∧
      (∀ tokens rpn, splitExpression s = .ok tokens → infixToPostfix tokens = .ok rpn →
        Calc s = computePostfix rpn) ∧
      (splitExpression "(1/0^" = .error (.invalidChar '^' 4) ∧
        Calc "(1/0^" = .error (.invalidChar '^' 4)) ∧
      (splitExpression "1/0)" = .ok ["1", "/", "0", ")"] ∧
        infixToPostfix ["1", "/", "0", ")"] = .error .unbalancedParens ∧
        Calc "1/0)" = .error .unbalancedParens) := by
  refine ⟨?_, ?_, ?_, by decide, by decide⟩
  · intro err h
    simp [Calc, h]
  · intro tokens err h1 h2
    simp [Calc, h1, h2]
  · intro tokens rpn h1 h2
    simp [Calc, h1, h2]

/-! ## Empty and blank input -/

/-- C13: on a string of white space characters only, the empty string included,
`splitExpression` succeeds with no tokens, `infixToPostfix` succeeds with the empty
postfix sequence, and `Calc` fails with the invalid-expression error. -/
theorem Calc_blank (s : String) (h : ∀ c ∈ s.data, unicode.IsSpace c = true) :
    splitExpression s = .ok [] ∧ infixToPostfix [] = .ok [] ∧
      Calc s = .error .invalidExpression ∧ Calc "" = .error .invalidExpression := by
  have hsplit : splitExpression s = .ok [] := by
    rw [splitExpression, splitLoop_number_run s.data 0 [] [] (fun c hc => Or.inl (h c hc))]
    have hf : s.data.filter (fun ch => !unicode.IsSpace ch) = [] :=
      List.filter_eq_nil_iff.2 fun c hc => by simp [h c hc]
    simp [hf, flushNumber]
  have hconv : infixToPostfix [] = .ok [] := by decide
  refine ⟨hsplit, hconv, ?_, by decide⟩
  simp [Calc, hsplit, hconv, computePostfix, evalLoop]

/-- Witness of C13 at a string of a space, a tab and a line feed. -/
theorem Calc_blank_witness :
    (∀ c ∈ " \t\n".data, unicode.IsSpace c = true) ∧ splitExpression " \t\n" = .ok [] ∧
      Calc " \t\n" = .error .invalidExpression :=
  ⟨by decide, (Calc_blank " \t\n" (by decide)).1, (Calc_blank " \t\n" (by decide)).2.2.1⟩

/-! ## Postfix order and evaluation of operations -/

/-- C15: on the tokens of a parse tree of the grammar `E -> E (+|-) T | T`,
`T -> T (*|/) F | F`, `F -> number | ( E )`, `infixToPostfix` succeeds and returns the
post-order traversal of the tree (left operand, right operand, operator);
`["2", "+", "2"]` gives `["2", "2", "+"]` and `["(", "3", "+", "4", ")", "*", "2"]`
gives `["3", "4", "+", "2", "*"]`. -/
theorem infixToPostfix_postorder (e : Expr) (h : Derives .E e) :
    infixToPostfix e.tokens = .ok e.postorder ∧
      infixToPostfix ["2", "+", "2"] = .ok ["2", "2", "+"] ∧
      infixToPostfix ["(", "3", "+", "4", ")", "*", "2"] = .ok ["3", "4", "+", "2", "*"] :=
  ⟨infixToPostfix_tokens h, by decide, by decide⟩

/-- Witness of C15 at the parse tree of `(3+4)*2`. -/
theorem infixToPostfix_postorder_witness :
    Derives .E (.binary .mul (.paren (.binary .add (.num "3") (.num "4"))) (.num "2")) ∧
      (Expr.binary .mul (.paren (.binary .add (.num "3") (.num "4"))) (.num "2")).tokens =
        ["(", "3", "+", "4", ")", "*", "2"] ∧
      (Expr.binary .mul (.paren (.binary .add (.num "3") (.num "4"))) (.num "2")).postorder =
        ["3", "4", "+", "2", "*"] ∧
      infixToPostfix
          (Expr.binary .mul (.paren (.binary .add (.num "3") (.num "4"))) (.num "2")).tokens =
        .ok (Expr.binary .mul (.paren (.binary .add (.num "3") (.num "4"))) (.num "2")).postorder :=
  ⟨.term (.mul (.factor (.paren (.add (.term (.factor (.num (by decide))))
      (.factor (.num (by decide)))))) (.num (by decide))),
    by decide, by decide,
    (infixToPostfix_postorder _ (.term (.mul (.factor (.paren (.add
      (.term (.factor (.num (by decide)))) (.factor (.num (by decide)))))) (.num (by decide))))).1⟩

theorem applyOperator_value (op : BinOp) (a b : float64)
    (hz : op = .div → b.isZero = false) :
    applyOperator op.token a b = .ok (op.value a b) := by
  rw [applyOperator_token]
  cases op
  · rfl
  · rfl
  · rfl
  · simp [BinOp.apply, BinOp.value, hz rfl]

/-- C16: `computePostfix [n]` is the value of the number token `n`; and when
`computePostfix p` is `a` and `computePostfix q` is `b`, then for each operator `op`,
with `b` not zero when `op` is `/`, `computePostfix (p ++ q ++ [op])` is `a op b`, the
value pushed first on the left; `["2", "2", "+"]` gives 4 and
`["3", "4", "+", "2", "*"]` gives 14. -/
theorem computePostfix_operation (p q : List String) (a b : float64) (op : BinOp)
    (hp : computePostfix p = .ok a) (hq : computePostfix q = .ok b)
    (hz : op = .div → b.isZero = false) :
    computePostfix (p ++ q ++ [op.token]) = .ok (op.value a b) ∧
      (∀ (n : String) (v : float64), strconv.ParseFloat n = some v → computePostfix [n] = .ok v) ∧
      computePostfix ["2", "2", "+"] = .ok (float64.ofNat 4) ∧
      computePostfix ["3", "4", "+", "2", "*"] = .ok (float64.ofNat 14) := by
  refine ⟨?_, ?_, by decide, by decide!⟩
  · have h1 := (computePostfix_ok_iff p a).1 hp
    have h2 := evalLoop_frame q [] [b] [a] ((computePostfix_ok_iff q b).1 hq)
    simp only [List.nil_append, List.singleton_append] at h2
    have hop := op.isOperator_token
    have h3 : evalLoop [op.token] [b, a] = .ok [op.value a b] := by
      simp [evalLoop, isNumber_of_isOperator hop, hop, applyOperator_value op a b hz]
    rw [computePostfix_ok_iff, List.append_assoc, evalLoop_append, h1]
    simp only []
    rw [evalLoop_append, h2]
    simp only []
    exact h3
  · intro n v hv
    simp [computePostfix, evalLoop, isNumber, hv]

/-- Witness of C16 at `p = ["8", "4", "/"]`, `q = ["2"]` and the operator `/`. -/
theorem computePostfix_operation_witness :
    computePostfix ["8", "4", "/"] = .ok (float64.ofNat 2) ∧
      computePostfix ["2"] = .ok (float64.ofNat 2) ∧
      (float64.ofNat 2).isZero = false ∧
      computePostfix (["8", "4", "/"] ++ ["2"] ++ [BinOp.div.token]) =
        .ok (BinOp.div.value (float64.ofNat 2) (float64.ofNat 2)) ∧
      BinOp.div.value (float64.ofNat 2) (float64.ofNat 2) = float64.ofNat 1 :=
  ⟨by decide!, by decide, by decide,
    (computePostfix_operation ["8", "4", "/"] ["2"] (float64.ofNat 2) (float64.ofNat 2) .div
      (by decide!) (by decide) (fun _ => by decide)).1,
    by decide!⟩

/-! ## The conversion keeps the numbers and operators and drops the parentheses -/

theorem popOperators_inv (t : String) (out st : List String) (n : Nat)
    (h : ConvInv out st n) : ConvInv (popOperators t out st).1 (popOperators t out st).2 n := by
  induction st generalizing out with
  | nil => simpa [popOperators] using h
  | cons top st ih =>
    unfold popOperators
    split
    · rename_i hcond
      have htop : isOperator top = true := by
        simp only [Bool.and_eq_true] at hcond
        exact hcond.1
      apply ih
      obtain ⟨h1, h2, h3⟩ := h
      refine ⟨?_, ?_, fun x hx => h3 x (List.mem_cons_of_mem _ hx)⟩
      · simp only [List.countP_cons, htop, if_true] at h1
        simp only [List.length_append, List.length_singleton]
        omega
      · intro x hx
        rcases List.mem_append.1 hx with hx | hx
        · exact h2 x hx
        · simp only [List.mem_singleton] at hx
          subst hx
          exact Or.inr htop
    · exact h

theorem popUntilOpen_inv (out st : List String) (n : Nat) (r : List String × List String)
    (hr : popUntilOpen out st = some r) (h : ConvInv out st n) : ConvInv r.1 r.2 n := by
  induction st generalizing out with
  | nil => simp [popUntilOpen] at hr
  | cons top st ih =>
    obtain ⟨h1, h2, h3⟩ := h
    by_cases htop : top = "("
    · subst htop
      simp only [popUntilOpen, if_true, Option.some.injEq] at hr
      subst hr
      refine ⟨?_, h2, fun x hx => h3 x (List.mem_cons_of_mem _ hx)⟩
      simpa [List.countP_cons, isOperator_open] using h1
    · simp only [popUntilOpen, htop, if_false] at hr
      have hop : isOperator top = true := by
        rcases h3 top (List.mem_cons_self _ _) with h | h
        · exact h
        · exact absurd h htop
      apply ih _ hr
      refine ⟨?_, ?_, fun x hx => h3 x (List.mem_cons_of_mem _ hx)⟩
      · simp only [List.countP_cons, hop, if_true] at h1
        simp only [List.length_append, List.length_singleton]
        omega
      · intro x hx
        rcases List.mem_append.1 hx with hx | hx
        · exact h2 x hx
        · simp only [List.mem_singleton] at hx
          subst hx
          exact Or.inr hop

theorem convertLoop_inv (ts out st : List String) (n : Nat) (r : List String × List String)
    (hr : convertLoop ts out st = .ok r) (h : ConvInv out st n) :
    ConvInv r.1 r.2 (n + ts.countP fun t => isNumber t || isOperator t) := by
  induction ts generalizing out st n with
  | nil =>
    simp only [convertLoop, Except.ok.injEq] at hr
    subst hr
    simpa using h
  | cons t ts ih =>
    by_cases hn : isNumber t = true
    · rw [convertLoop_number t ts out st hn] at hr
      obtain ⟨h1, h2, h3⟩ := h
      have := ih (out ++ [t]) st (n + 1) hr ⟨by
        simp only [List.length_append, List.length_singleton]; omega, by
        intro x hx
        rcases List.mem_append.1 hx with hx | hx
        · exact h2 x hx
        · simp only [List.mem_singleton] at hx
          subst hx
          exact Or.inl hn, h3⟩
      simpa [List.countP_cons, hn, Nat.add_assoc, Nat.add_comm] using this
    · by_cases ho : isOperator t = true
      · rw [convertLoop_operator t ts out st ho] at hr
        obtain ⟨h1, h2, h3⟩ := popOperators_inv t out st n h
        have := ih _ _ (n + 1) hr ⟨by
          simp only [List.countP_cons, ho, if_true]; omega, h2, by
          intro x hx
          rcases List.mem_cons.1 hx with rfl | hx
          · exact Or.inl ho
          · exact h3 x hx⟩
        simpa [List.countP_cons, hn, ho, Nat.add_assoc, Nat.add_comm] using this
      · simp only [Bool.not_eq_true] at hn ho
        by_cases hopen : t = "("
        · subst hopen
          rw [convertLoop_open] at hr
          obtain ⟨h1, h2, h3⟩ := h
          have := ih out ("(" :: st) n hr ⟨by
            simpa [List.countP_cons, isOperator_open] using h1, h2, by
            intro x hx
            rcases List.mem_cons.1 hx with rfl | hx
            · exact Or.inr rfl
            · exact h3 x hx⟩
          simpa [List.countP_cons, hn, ho] using this
        · by_cases hclose : t = ")"
          · subst hclose
            cases hp : popUntilOpen out st with
            | none => simp [convertLoop, hn, ho, hp] at hr
            | some r1 =>
              rw [convertLoop_close ts out st r1 hp] at hr
              have := ih r1.1 r1.2 n hr (popUntilOpen_inv out st n r1 hp h)
              simpa [List.countP_cons, hn, ho] using this
          · have hskip : convertLoop (t :: ts) out st = convertLoop ts out st := by
              simp [convertLoop, hn, ho, hopen, hclose]
            rw [hskip] at hr
            have := ih out st n hr h
            simpa [List.countP_cons, hn, ho] using this

theorem drainStack_inv (out st o : List String) (n : Nat)
    (ho : drainStack out st = .ok o) (h : ConvInv out st n) :
    o.length = n ∧ ∀ x ∈ o, isNumber x = true ∨ isOperator x = true := by
  induction st generalizing out with
  | nil =>
    simp only [drainStack, Except.ok.injEq] at ho
    subst ho
    obtain ⟨h1, h2, _⟩ := h
    exact ⟨by simpa using h1, h2⟩
  | cons top st ih =>
    obtain ⟨h1, h2, h3⟩ := h
    by_cases hp : top = "(" ∨ top = ")"
    · simp [drainStack, hp] at ho
    · simp only [drainStack, hp, if_false] at ho
      have hop : isOperator top = true := by
        rcases h3 top (List.mem_cons_self _ _) with h | h
        · exact h
        · exact absurd (Or.inl h) hp
      apply ih _ ho
      refine ⟨?_, ?_, fun x hx => h3 x (List.mem_cons_of_mem _ hx)⟩
      · simp only [List.countP_cons, hop, if_true] at h1
        simp only [List.length_append, List.length_singleton]
        omega
      · intro x hx
        rcases List.mem_append.1 hx with hx | hx
        · exact h2 x hx
        · simp only [List.mem_singleton] at hx
          subst hx
          exact Or.inr hop

/-- C12: when `infixToPostfix` succeeds, the length of the output is the number of
input tokens that are numbers or operators, and the output holds neither `"("` nor
`")"`; the 7 tokens of `"(3+4)*2"` yield the 5 tokens `3 4 + 2 *`. -/
theorem infixToPostfix_length (tokens out : List String)
    (h : infixToPostfix tokens = .ok out) :
    out.length = tokens.countP (fun t => isNumber t || isOperator t) ∧
      "(" ∉ out ∧ ")" ∉ out ∧
      (splitExpression "(3+4)*2" = .ok ["(", "3", "+", "4", ")", "*", "2"] ∧
        infixToPostfix ["(", "3", "+", "4", ")", "*", "2"] = .ok ["3", "4", "+", "2", "*"]) := by
  refine ⟨?_, ?_, ?_, by decide, by decide⟩
  all_goals
    unfold infixToPostfix at h
    cases hc : convertLoop tokens [] [] with
    | error e => rw [hc] at h; cases h
    | ok r =>
      rw [hc] at h
      simp only [] at h
      have hinv := convertLoop_inv tokens [] [] 0 r hc ⟨by simp, by simp, by simp⟩
      obtain ⟨h1, h2⟩ := drainStack_inv r.1 r.2 out _ h hinv
      first
        | (simpa using h1)
        | (intro hm
           rcases h2 _ hm with h3 | h3
           · simp [isNumber_open, isNumber_close] at h3
           · simp [isOperator_open, isOperator_close] at h3)

/-- Witness of C12 at the tokens of `"(3+4)*2"`. -/
theorem infixToPostfix_length_witness :
    infixToPostfix ["(", "3", "+", "4", ")", "*", "2"] = .ok ["3", "4", "+", "2", "*"] ∧
      ["3", "4", "+", "2", "*"].length =
        ["(", "3", "+", "4", ")", "*", "2"].countP (fun t => isNumber t || isOperator t) :=
  ⟨by decide,
    (infixToPostfix_length ["(", "3", "+", "4", ")", "*", "2"] ["3", "4", "+", "2", "*"]
      (by decide)).1⟩

/-! ## The height of the operand stack -/

/-- Without the operator `/`, the evaluation loop follows the stack height: it fails
with the insufficient-operands error exactly when an operator arrives at a height
below 2, and otherwise ends with a stack of the scanned height. -/
theorem evalLoop_heightScan (ts : List String) (st : List float64)
    (hdiv : ∀ t ∈ ts, t ≠ "/") :
    match heightScan ts st.length with
    | none => evalLoop ts st = .error .insufficientOperands
    | some h => ∃ st1, evalLoop ts st = .ok st1 ∧ st1.length = h := by
  induction ts generalizing st with
  | nil => exact ⟨st, rfl, rfl⟩
  | cons t ts ih =>
    have hts := fun x hx => hdiv x (List.mem_cons_of_mem _ hx)
    by_cases hn : isNumber t = true
    · cases hp : strconv.ParseFloat t with
      | none => simp [isNumber, hp] at hn
      | some v =>
        have := ih (v :: st) hts
        simpa [heightScan, hn, evalLoop_number t ts st v hp] using this
    · by_cases ho : isOperator t = true
      · have hne : t ≠ "/" := hdiv t (List.mem_cons_self _ _)
        match st with
        | [] => simp [heightScan, hn, ho, evalLoop]
        | [b] => simp [heightScan, hn, ho, evalLoop]
        | b :: a :: below =>
          have happ : ∃ r, applyOperator t a b = .ok r := by
            unfold applyOperator
            split
            · exact ⟨_, rfl⟩
            · split
              · exact ⟨_, rfl⟩
              · split
                · exact ⟨_, rfl⟩
                · simp [hne]
          obtain ⟨r, hr⟩ := happ
          have := ih (r :: below) hts
          simpa [heightScan, hn, ho, evalLoop, hr] using this
      · have := ih st hts
        simpa [heightScan, hn, ho, evalLoop] using this

theorem heightScan_none (ts : List String) (h : Nat)
    (hts : ∀ t ∈ ts, isNumber t = true ∨ isOperator t = true)
    (hs : heightScan ts h = none) :
    ∃ k, 0 < k ∧ k ≤ ts.length ∧
      h + (ts.take k).countP isNumber ≤ (ts.take k).countP isOperator := by
  induction ts generalizing h with
  | nil => simp [heightScan] at hs
  | cons t ts ih =>
    have hrest := fun x hx => hts x (List.mem_cons_of_mem _ hx)
    by_cases hn : isNumber t = true
    · have ho : isOperator t = false := by
        cases ho : isOperator t with
        | false => rfl
        | true => rw [isNumber_of_isOperator ho] at hn; cases hn
      simp only [heightScan, hn, if_true] at hs
      obtain ⟨k, h1, h2, h3⟩ := ih (h + 1) hrest hs
      refine ⟨k + 1, by omega, by simpa using h2, ?_⟩
      simp only [List.take_succ_cons, List.countP_cons, hn, ho, if_true]
      simp
      omega
    · have ho : isOperator t = true := by
        rcases hts t (List.mem_cons_self _ _) with h1 | h1
        · exact absurd h1 hn
        · exact h1
      simp only [Bool.not_eq_true] at hn
      by_cases hlt : h < 2
      · exact ⟨1, by omega, by simp, by simp [List.countP_cons, hn, ho]; omega⟩
      · simp only [heightScan, hn, ho, hlt, if_true, if_false] at hs
        simp at hs
        obtain ⟨k, h1, h2, h3⟩ := ih (h - 1) hrest hs
        refine ⟨k + 1, by omega, by simpa using h2, ?_⟩
        simp only [List.take_succ_cons, List.countP_cons, hn, ho, if_true]
        simp
        omega

theorem heightScan_some (ts : List String) (h r : Nat)
    (hts : ∀ t ∈ ts, isNumber t = true ∨ isOperator t = true)
    (hs : heightScan ts h = some r) :
    r + ts.countP isOperator = h + ts.countP isNumber ∧
      ∀ k, 0 < k → k ≤ ts.length →
        (ts.take k).countP isOperator < h + (ts.take k).countP isNumber := by
  induction ts generalizing h with
  | nil =>
    simp only [heightScan, Option.some.injEq] at hs
    subst hs
    exact ⟨by simp, fun k h1 h2 => by simp at h2; omega⟩
  | cons t ts ih =>
    have hrest := fun x hx => hts x (List.mem_cons_of_mem _ hx)
    by_cases hn : isNumber t = true
    · have ho : isOperator t = false := by
        cases ho : isOperator t with
        | false => rfl
        | true => rw [isNumber_of_isOperator ho] at hn; cases hn
      simp only [heightScan, hn, if_true] at hs
      obtain ⟨h1, h2⟩ := ih (h + 1) hrest hs
      constructor
      · simp only [List.countP_cons, hn, ho, if_true]
        simp
        omega
      · intro k hk hle
        cases k with
        | zero => omega
        | succ k =>
          simp only [List.take_succ_cons, List.countP_cons, hn, ho, if_true]
          simp
          cases k with
          | zero => simp
          | succ k =>
            have := h2 (k + 1) (by omega) (by simpa using hle)
            omega
    · have ho : isOperator t = true := by
        rcases hts t (List.mem_cons_self _ _) with h1 | h1
        · exact absurd h1 hn
        · exact h1
      simp only [Bool.not_eq_true] at hn
      by_cases hlt : h < 2
      · simp [heightScan, hn, ho, hlt] at hs
      · simp only [heightScan, hn, ho, hlt, if_true, if_false] at hs
        simp at hs
        obtain ⟨h1, h2⟩ := ih (h - 1) hrest hs
        constructor
        · simp only [List.countP_cons, hn, ho, if_true]
          simp
          omega
        · intro k hk hle
          cases k with
          | zero => omega
          | succ k =>
            simp only [List.take_succ_cons, List.countP_cons, hn, ho, if_true]
            simp
            cases k with
            | zero => simp; omega
            | succ k =>
              have := h2 (k + 1) (by omega) (by simpa using hle)
              omega

/-- C17: on a sequence of number tokens and operator tokens other than `/`,
`computePostfix` succeeds if and only if every non-empty initial segment holds more
numbers than operators and the whole sequence holds exactly one more number than
operators; it fails with the insufficient-operands error when some initial segment
breaks the first condition, and with the invalid-expression error when only the final
count differs from one. -/
theorem computePostfix_succeeds_iff (ts : List String)
    (hts : ∀ t ∈ ts, isNumber t = true ∨ (isOperator t = true ∧ t ≠ "/")) :
    ((∃ v, computePostfix ts = .ok v) ↔
        PrefixesOk ts ∧ ts.countP isNumber = ts.countP isOperator + 1) ∧
      (¬ PrefixesOk ts → computePostfix ts = .error .insufficientOperands) ∧
      (PrefixesOk ts → ts.countP isNumber ≠ ts.countP isOperator + 1 →
        computePostfix ts = .error .invalidExpression) := by
  have hdiv : ∀ t ∈ ts, t ≠ "/" := by
    intro t ht
    rcases hts t ht with h | h
    · rintro rfl
      revert h
      decide
    · exact h.2
  have hkind : ∀ t ∈ ts, isNumber t = true ∨ isOperator t = true := by
    intro t ht
    rcases hts t ht with h | h
    · exact Or.inl h
    · exact Or.inr h.1
  have hloop := evalLoop_heightScan ts [] hdiv
  simp only [List.length_nil] at hloop
  cases hs : heightScan ts 0 with
  | none =>
    rw [hs] at hloop
    simp only [] at hloop
    obtain ⟨k, h1, h2, h3⟩ := heightScan_none ts 0 hkind hs
    have hbad : ¬ PrefixesOk ts := by
      intro hp
      have := hp k h1 h2
      omega
    have herr : computePostfix ts = .error .insufficientOperands := by
      simp [computePostfix, hloop]
    refine ⟨?_, fun _ => herr, fun hp => absurd hp hbad⟩
    constructor
    · rintro ⟨v, hv⟩
      rw [herr] at hv
      cases hv
    · rintro ⟨hp, _⟩
      exact absurd hp hbad
  | some r =>
    rw [hs] at hloop
    obtain ⟨st1, h1, h2⟩ := hloop
    obtain ⟨h3, h4⟩ := heightScan_some ts 0 r hkind hs
    have hok : PrefixesOk ts := by
      intro k hk hle
      have := h4 k hk hle
      omega
    have hres : computePostfix ts =
        match st1 with
        | [v] => .ok v
        | _ => .error .invalidExpression := by
      simp only [computePostfix, h1]
      match st1 with
      | [] => rfl
      | [v] => rfl
      | _ :: _ :: _ => rfl
    refine ⟨?_, fun hbad => absurd hok hbad, ?_⟩
    · constructor
      · rintro ⟨v, hv⟩
        refine ⟨hok, ?_⟩
        rw [hres] at hv
        match st1, h2 with
        | [], _ => cases hv
        | [w], h2 => simp at h2; omega
        | _ :: _ :: _, _ => cases hv
      · rintro ⟨_, hcount⟩
        rw [hres]
        match st1, h2 with
        | [], h2 => simp at h2; omega
        | [w], _ => exact ⟨w, rfl⟩
        | _ :: _ :: _, h2 => simp at h2; omega
    · intro _ hcount
      rw [hres]
      match st1, h2 with
      | [], _ => rfl
      | [w], h2 => simp at h2; omega
      | _ :: _ :: _, _ => rfl

/-- Witness of C17 at `["3", "4", "+", "2", "*"]`. -/
theorem computePostfix_succeeds_iff_witness :
    (∀ t ∈ ["3", "4", "+", "2", "*"], isNumber t = true ∨ (isOperator t = true ∧ t ≠ "/")) ∧
      ((∃ v, computePostfix ["3", "4", "+", "2", "*"] = .ok v) ↔
        PrefixesOk ["3", "4", "+", "2", "*"] ∧
          ["3", "4", "+", "2", "*"].countP isNumber =
            ["3", "4", "+", "2", "*"].countP isOperator + 1) ∧
      computePostfix ["3", "4", "+", "2", "*"] = .ok (float64.ofNat 14) :=
  ⟨by decide, (computePostfix_succeeds_iff ["3", "4", "+", "2", "*"] (by decide)).1, by decide!⟩

/-! ## The tokens spell the input without its white space -/

theorem concatTokens_append (a b : List String) :
    (concatTokens (a ++ b)).data = (concatTokens a).data ++ (concatTokens b).data := by
  induction a with
  | nil => simp [concatTokens]
  | cons t a ih => simp [concatTokens, String.data_append, ih]

theorem flushNumber_spec (toks : List String) (nb : List Char)
    (htoks : ∀ t ∈ toks, TokenShape t) (hnb : ∀ c ∈ nb, unicode.IsDigit c = true ∨ c = '.') :
    (concatTokens (flushNumber toks nb)).data = (concatTokens toks).data ++ nb ∧
      ∀ t ∈ flushNumber toks nb, TokenShape t := by
  unfold flushNumber
  by_cases hpos : 0 < nb.length
  · simp only [hpos, if_true]
    refine ⟨by simp [concatTokens_append, concatTokens], ?_⟩
    intro t ht
    rcases List.mem_append.1 ht with ht | ht
    · exact htoks t ht
    · simp only [List.mem_singleton] at ht
      subst ht
      refine ⟨?_, Or.inr hnb⟩
      intro h
      have : nb = [] := congrArg String.data h
      rw [this] at hpos
      simp at hpos
  · have : nb = [] := List.length_eq_zero.1 (by omega)
    subst this
    simp only [hpos, if_false]
    exact ⟨by simp, htoks⟩

/-- The tokens returned by the tokenizer loop spell the tokens and the builder it
started with, followed by the rest of the input without its white space. -/
theorem splitLoop_spelling (cs : List Char) (i : Nat) (toks : List String) (nb : List Char)
    (ts : List String) (h : splitLoop cs i toks nb = .ok ts)
    (htoks : ∀ t ∈ toks, TokenShape t) (hnb : ∀ c ∈ nb, unicode.IsDigit c = true ∨ c = '.') :
    (concatTokens ts).data =
        (concatTokens toks).data ++ nb ++ cs.filter (fun ch => !unicode.IsSpace ch) ∧
      ∀ t ∈ ts, TokenShape t := by
  induction cs generalizing i toks nb with
  | nil =>
    simp only [splitLoop, Except.ok.injEq] at h
    subst h
    simpa using flushNumber_spec toks nb htoks hnb
  | cons c cs ih =>
    by_cases hs : unicode.IsSpace c = true
    · rw [splitLoop_space c cs i toks nb hs] at h
      simpa [List.filter, hs] using ih _ _ _ h htoks hnb
    · simp only [Bool.not_eq_true] at hs
      by_cases hd : (unicode.IsDigit c || c == '.') = true
      · rw [splitLoop_digit c cs i toks nb hs hd] at h
        have hnb1 : ∀ x ∈ nb ++ [c], unicode.IsDigit x = true ∨ x = '.' := by
          intro x hx
          rcases List.mem_append.1 hx with hx | hx
          · exact hnb x hx
          · simp only [List.mem_singleton] at hx
            subst hx
            simpa using hd
        simpa [List.filter, hs] using ih _ _ _ h htoks hnb1
      · simp only [Bool.not_eq_true] at hd
        by_cases hc : containsRune "+-*/()" c = true
        · rw [splitLoop_symbol c cs i toks nb hs hd hc] at h
          obtain ⟨f1, f2⟩ := flushNumber_spec toks nb htoks hnb
          have htoks1 : ∀ t ∈ flushNumber toks nb ++ [String.mk [c]], TokenShape t := by
            intro t ht
            rcases List.mem_append.1 ht with ht | ht
            · exact f2 t ht
            · simp only [List.mem_singleton] at ht
              subst ht
              refine ⟨fun hemp => ?_, Or.inl ⟨c, rfl, hc⟩⟩
              have : [c] = ([] : List Char) := congrArg String.data hemp
              cases this
          obtain ⟨g1, g2⟩ := ih _ _ _ h htoks1 (by simp)
          refine ⟨?_, g2⟩
          rw [g1, concatTokens_append, f1]
          simp [concatTokens, List.filter, hs]
        · have hbad : allowedChar c = false := by
            simp only [Bool.or_eq_false_iff] at hd
            simp [allowedChar, hs, hd.1, hd.2, hc]
          rw [splitLoop_invalid c cs i toks nb hbad] at h
          cases h

/-- C18: when `splitExpression` succeeds, the tokens concatenated in order are the
input without its white space characters, and every token is non-empty and is either
one character among `+ - * / ( )` or a string of digits and dots. -/
theorem splitExpression_spelling (s : String) (ts : List String)
    (h : splitExpression s = .ok ts) :
    concatTokens ts = removeSpaces s ∧ ∀ t ∈ ts, TokenShape t := by
  obtain ⟨h1, h2⟩ := splitLoop_spelling s.data 0 [] [] ts h (by simp) (by simp)
  refine ⟨String.ext ?_, h2⟩
  simpa [concatTokens, removeSpaces] using h1

/-- Witness of C18 at `" (  3 + 4 ) * 2 "`. -/
theorem splitExpression_spelling_witness :
    splitExpression " (  3 + 4 ) * 2 " = .ok ["(", "3", "+", "4", ")", "*", "2"] ∧
      concatTokens ["(", "3", "+", "4", ")", "*", "2"] = "(3+4)*2" ∧
      removeSpaces " (  3 + 4 ) * 2 " = "(3+4)*2" ∧
      concatTokens ["(", "3", "+", "4", ")", "*", "2"] = removeSpaces " (  3 + 4 ) * 2 " :=
  ⟨by decide, by decide, by decide,
    (splitExpression_spelling " (  3 + 4 ) * 2 " ["(", "3", "+", "4", ")", "*", "2"]
      (by decide)).1⟩

/-! ## Inputs that are not expressions of the grammar -/

/-- In the tokens of a parse tree, operands and operators alternate. -/
theorem alternates_tokens {sym : Sym} {e : Expr} (h : Derives sym e) :
    ∀ rest, alternates true (e.tokens ++ rest) = alternates false rest := by
  have bin : ∀ (op : BinOp) (l r : Expr),
      (∀ rest, alternates true (l.tokens ++ rest) = alternates false rest) →
      (∀ rest, alternates true (r.tokens ++ rest) = alternates false rest) →
      ∀ rest, alternates true ((Expr.binary op l r).tokens ++ rest) = alternates false rest := by
    intro op l r hl hr rest
    have e1 : (Expr.binary op l r).tokens ++ rest = l.tokens ++ op.token :: (r.tokens ++ rest) := by
      simp [Expr.tokens]
    rw [e1, hl]
    simp [alternates, op.isOperator_token, hr]
  induction h with
  | add _ _ ihl ihr => exact bin .add _ _ ihl ihr
  | sub _ _ ihl ihr => exact bin .sub _ _ ihl ihr
  | mul _ _ ihl ihr => exact bin .mul _ _ ihl ihr
  | div _ _ ihl ihr => exact bin .div _ _ ihl ihr
  | term _ ih => exact ih
  | factor _ ih => exact ih
  | @num lit hlit =>
    intro rest
    have hn : isNumber lit = true := by
      simp only [decimalLiteral, Bool.and_eq_true] at hlit
      exact hlit.2
    have hne : lit ≠ "(" := by
      rintro rfl
      simp [isNumber_open] at hn
    simp [Expr.tokens, alternates, hn, hne]
  | @paren e _ ih =>
    intro rest
    have e1 : (Expr.paren e).tokens ++ rest = "(" :: (e.tokens ++ ")" :: rest) := by
      simp [Expr.tokens]
    rw [e1]
    simp [alternates, ih, isOperator_close]

/-- A string whose tokens do not alternate is the text of no parse tree. -/
theorem not_text_of_not_alternates (s : String) (ts : List String)
    (hs : splitExpression s = .ok ts) (ha : alternates true ts = false) :
    ¬ ∃ e, Derives .E e ∧ e.text = s := by
  rintro ⟨e, hd, rfl⟩
  rw [splitExpression_text hd] at hs
  simp only [Except.ok.injEq] at hs
  have := alternates_tokens hd []
  rw [List.append_nil, hs, ha] at this
  simp [alternates] at this

/-- C20: `Calc "(2)3+"` and `Calc "2+3()"` both return 5 although neither string is
the text of a parse tree of the grammar: for both, `infixToPostfix` returns `2 3 +`;
it checks the balance of the parentheses only, not the alternation of operands and
operators, and an empty pair of parentheses adds nothing to the output. -/
theorem Calc_accepts_malformed :
    (Calc "(2)3+" = .ok (float64.ofNat 5) ∧ Calc "2+3()" = .ok (float64.ofNat 5)) ∧
      ((¬ ∃ e, Derives .E e ∧ e.text = "(2)3+") ∧ (¬ ∃ e, Derives .E e ∧ e.text = "2+3()")) ∧
      (splitExpression "(2)3+" = .ok ["(", "2", ")", "3", "+"] ∧
        infixToPostfix ["(", "2", ")", "3", "+"] = .ok ["2", "3", "+"]) ∧
      (splitExpression "2+3()" = .ok ["2", "+", "3", "(", ")"] ∧
        infixToPostfix ["2", "+", "3", "(", ")"] = .ok ["2", "3", "+"]) := by
  refine ⟨⟨by decide!, by decide!⟩, ⟨?_, ?_⟩, by decide, by decide⟩
  · exact not_text_of_not_alternates "(2)3+" ["(", "2", ")", "3", "+"] (by decide) (by decide)
  · exact not_text_of_not_alternates "2+3()" ["2", "+", "3", "(", ")"] (by decide) (by decide)

end CalcService
